import Mathlib

/-!
# Rareman: Hellerman-Rarick transform on a CRS bit matrix

A shallow embedding of `src/src/matpbm.c` and `src/src/rareman.c`.

* `idx_t` arrays are `List Nat`; a read outside the array is an error (`none`).
* Every function that reads or writes memory returns `Option`; `none` stands
  for behaviour the C program does not define (a read or write out of bounds,
  an `int` counter that leaves its range)
  or, for the two loops of `hr_transform`, for running out of fuel.
* `qsort_r` is a parameter `srt` of the model: any function that returns a
  permutation of its input sorted for `compareByMagnitude`.
-/

namespace Rareman

/-! ## Data model (`matpbm.h`) -/

/-- The struct `submat_t`. -/
structure Submat where
  p : Nat
  q : Nat
  s : Nat
deriving DecidableEq, Repr

/-- The struct `bmat_t`. -/
structure Bmat where
  rowptr : List Nat
  rowlen : List Nat
  colind : List Nat
  m : Nat
  nz : Nat
  roworder : List Nat
  colorder : List Nat
  active : Submat
deriving DecidableEq, Repr

/-- The cells `A[start .. start+n)` of an array, when they all exist. -/
def cells (A : List Nat) (start n : Nat) : Option (List Nat) :=
  if start + n ≤ A.length then some ((A.drop start).take n) else none

/-- The slice of `colind` that holds physical row `i`:
`colind[rowptr[i] .. rowptr[i]+rowlen[i])`. -/
def rowSlice (mat : Bmat) (i : Nat) : Option (List Nat) := do
  let ptr ← mat.rowptr[i]?
  let len ← mat.rowlen[i]?
  cells mat.colind ptr len

/-! ## `matpbm.c` -/

/-- The scan `for (int k = ptr; k < ptr + rowlen[i]; k++) if (colind[k] == j)`
of `matpbm_isNZ` and of `matpbm_writeToStream`, at counter `k` with `n`
iterations left. The counter is an `int`: a `ptr` from `2^31` on becomes a
negative `k` and `colind[k]` a read before the array, and `k++` is not defined
at `2^31 - 1`; both are `none`. -/
def isNZ_scan (colind : List Nat) (j : Nat) : Nat → Nat → Option Bool
  | _, 0 => some false
  | k, n + 1 =>
    if 2 ^ 31 ≤ k then none
    else do
      let c ← colind[k]?
      if c = j then some true
      else if k + 1 = 2 ^ 31 then none
      else isNZ_scan colind j (k + 1) n

/-- The number of iterations the scan makes when no cell matches: the test
`k < ptr + rowlen[i]` is made in `unsigned int`, where the sum wraps at `2^32`. -/
def scan_count (ptr len : Nat) : Nat := (ptr + len) % 2 ^ 32 - ptr

/-- The function `matpbm_isNZ`. -/
def matpbm_isNZ (mat : Bmat) (row col : Nat) : Option Bool := do
  let i ← mat.roworder[row]?
  let ptr ← mat.rowptr[i]?
  let j ← mat.colorder[col]?
  let len ← mat.rowlen[i]?
  isNZ_scan mat.colind j ptr (scan_count ptr len)

/-- The function `matpbm_swapRows`. -/
def matpbm_swapRows (mat : Bmat) (row1 row2 : Nat) : Option Bmat := do
  let tmp ← mat.roworder[row1]?
  let v ← mat.roworder[row2]?
  pure { mat with roworder := (mat.roworder.set row1 v).set row2 tmp }

/-- The function `matpbm_swapCols`, as written: it reads `colorder[col1]` into
`tmp` and then assigns to `roworder[col1]` and `roworder[col2]`. -/
def matpbm_swapCols (mat : Bmat) (col1 col2 : Nat) : Option Bmat := do
  let tmp ← mat.colorder[col1]?
  let v ← mat.roworder[col2]?
  if col1 < mat.roworder.length then
    pure { mat with roworder := (mat.roworder.set col1 v).set col2 tmp }
  else none

/-- The call `memmove(A + dst, A + src, n * sizeof(idx_t))`. -/
def memmove (A : List Nat) (dst src n : Nat) : Option (List Nat) :=
  if src + n ≤ A.length ∧ dst + n ≤ A.length then
    some (A.take dst ++ (A.drop src).take n ++ A.drop (dst + n))
  else none

/-- The function `arrayMove`. -/
def arrayMove (A : List Nat) (from_ to_ : Nat) : Option (List Nat) :=
  if from_ = to_ then some A
  else do
    let value ← A[from_]?
    let A1 ← if from_ < to_ then memmove A from_ (from_ + 1) (to_ - from_)
             else memmove A (to_ + 1) to_ (from_ - to_)
    if to_ < A1.length then some (A1.set to_ value) else none

/-- The function `matpbm_moveRow`. -/
def matpbm_moveRow (mat : Bmat) (from_ to_ : Nat) : Option Bmat := do
  let ro ← arrayMove mat.roworder from_ to_
  pure { mat with roworder := ro }

/-- The function `matpbm_moveCol`. -/
def matpbm_moveCol (mat : Bmat) (from_ to_ : Nat) : Option Bmat := do
  let co ← arrayMove mat.colorder from_ to_
  pure { mat with colorder := co }

/-- One call of a permutation operation of `matpbm.h`. -/
inductive PermOp where
  | swapRows (i j : Nat)
  | swapCols (i j : Nat)
  | moveRow (from_ to_ : Nat)
  | moveCol (from_ to_ : Nat)
deriving DecidableEq, Repr

/-- Runs one permutation operation. -/
def PermOp.run (mat : Bmat) : PermOp → Option Bmat
  | .swapRows i j => matpbm_swapRows mat i j
  | .swapCols i j => matpbm_swapCols mat i j
  | .moveRow a b => matpbm_moveRow mat a b
  | .moveCol a b => matpbm_moveCol mat a b

/-- Runs a sequence of permutation operations, first to last. -/
def runOps (mat : Bmat) : List PermOp → Option Bmat
  | [] => some mat
  | op :: ops => (op.run mat).bind (fun mat1 => runOps mat1 ops)

/-! ## `rareman.c` -/

/-- The macro `IDX_LAST`, `(1 << 31)` converted to `idx_t`. -/
def IDX_LAST : Nat := 2 ^ 31

/-- The loop of `isIn` from index `i` on, over the cells still to scan. -/
def isInFrom (value : Nat) : List Nat → Nat → Option Nat
  | [], _ => none
  | x :: xs, i =>
    if x = IDX_LAST then none
    else if x = value then some i
    else isInFrom value xs (i + 1)

/-- The function `isIn` over the cells `set[0 .. n)`; `none` is the result `-1`. -/
def isIn (value : Nat) (set : List Nat) : Option Nat := isInFrom value set 0

/-- Reading a 32-bit pattern as an `int`. -/
def toInt32 (x : Nat) : Int :=
  if x % 2 ^ 32 < 2 ^ 31 then (x % 2 ^ 32 : Nat) else ((x % 2 ^ 32 : Nat) : Int) - 2 ^ 32

/-- The function `compareByMagnitude`: the unsigned difference of the two
magnitudes, returned as `int`. -/
def compareByMagnitude (magnitude : Nat → Nat) (elemA elemB : Nat) : Int :=
  toInt32 ((magnitude elemA + 2 ^ 32 - magnitude elemB % 2 ^ 32) % 2 ^ 32)

/-- A scratch array of `hr_transform` (`n_nz`, `n_intersect`): a cell is
`none` until it is written. -/
abbrev Scratch := List (Option Nat)

/-- Reads cell `k`; an error when the cell does not exist or was never written. -/
def Scratch.read (s : Scratch) (k : Nat) : Option Nat := (s[k]?).join

/-- Writes cell `k`; an error when the cell does not exist. -/
def Scratch.write (s : Scratch) (k v : Nat) : Option Scratch :=
  if k < s.length then some (s.set k (some v)) else none

/-- A sorting routine standing for `qsort_r` with `compareByMagnitude`: it is
given the magnitudes and the array. -/
abbrev Sorter := (Nat → Nat) → List Nat → List Nat

/-- What `qsort_r` promises for a comparator that is a total preorder (all
magnitudes below `2^31`): a permutation of the input in which no element
compares greater than a later one. Ties are broken in any way. -/
def Admissible (srt : Sorter) : Prop :=
  ∀ (mag : Nat → Nat) (l : List Nat), (∀ a ∈ l, mag a < 2 ^ 31) →
    (srt mag l).Perm l ∧ (srt mag l).Pairwise (fun a b => compareByMagnitude mag a b ≤ 0)

/-- The call `qsort_r(base, n, sizeof(idx_t), compareByMagnitude, magnitude)`:
the comparator reads `magnitude[e]` for elements `e` of the array. -/
def qsort_r (srt : Sorter) (base : List Nat) (magnitude : Scratch) : Option (List Nat) :=
  if base.all (fun e => (magnitude.read e).isSome) then
    some (srt (fun e => (magnitude.read e).getD 0) base)
  else none

/-- The test `isIn(colorder[col], &colind[rowptr[roworder[row]]],
rowlen[roworder[row]]) != -1` of `hr_transform`. -/
def rowHas (mat : Bmat) (row col : Nat) : Option Bool := do
  let j ← mat.colorder[col]?
  let i ← mat.roworder[row]?
  let sl ← rowSlice mat i
  pure (isIn j sl).isSome

/-- Lines 61-66: the active columns that are not pivot columns. -/
def activeCols (mat : Bmat) (pivot_cols : List Nat) : List Nat :=
  (List.range' mat.active.p (mat.m - mat.active.q - mat.active.p)).filter
    (fun j => (isIn j pivot_cols).isNone)

/-- Lines 69-74: the rows of the active matrix, `a_rows[i] = p + i`. -/
def activeRows (mat : Bmat) : List Nat :=
  List.range' mat.active.p (mat.m - mat.active.p)

/-- Lines 75-84: the value left in `n_nz[row]`. -/
def count_nz (mat : Bmat) (a_cols : List Nat) (row : Nat) : Option Nat := do
  let c ← a_cols.foldlM
    (fun n col => do
      let b ← rowHas mat row col
      pure (if b then n + 1 else n)) 0
  pure (if c = 0 then mat.m else c)

/-- Lines 72-85: fills `n_nz` for the given rows. -/
def init_rows (mat : Bmat) (a_cols rows : List Nat) (n_nz : Scratch) : Option Scratch :=
  rows.foldlM
    (fun s row => do
      let c ← count_nz mat a_cols row
      s.write row c) n_nz

/-- Lines 111-119: the value left in `n_intersect[col]`, counting from `acc`
over the rest of `a_rows`, with the `break` at the first row above `min`. -/
def count_intersect (mat : Bmat) (n_nz : Scratch) (min col : Nat) :
    List Nat → Nat → Option Nat
  | [], acc => some acc
  | k :: rest, acc => do
    let v ← n_nz.read k
    if v > min then some acc
    else do
      let b ← rowHas mat k col
      count_intersect mat n_nz min col rest (if b then acc + 1 else acc)

/-- Lines 107-120: fills `n_intersect` for the given columns. -/
def init_cols (mat : Bmat) (n_nz : Scratch) (min : Nat) (a_rows a_cols : List Nat)
    (n_intersect : Scratch) : Option Scratch :=
  a_cols.foldlM
    (fun s col => do
      let c ← count_intersect mat n_nz min col a_rows 0
      s.write col c) n_intersect

/-- Lines 147-156: the loop that swaps the rows holding the pivot column to
the front of `a_rows`; `n` iterations are left, `i` and `k` are the loop's. -/
def select_rows (mat : Bmat) (n_nz : Scratch) (min col : Nat) :
    Nat → Nat → Nat → List Nat → Option (List Nat)
  | 0, _, _, a => some a
  | n + 1, i, k, a => do
    let row ← a[i]?
    let v ← n_nz.read row
    if v ≠ min then some a
    else do
      let b ← rowHas mat row col
      if b then do
        let ak ← a[k]?
        select_rows mat n_nz min col n (i + 1) (k + 1) ((a.set i ak).set k row)
      else select_rows mat n_nz min col n (i + 1) k a

/-- The read `arr[n - j - 1]` of an array with `n` cells written, as in
`a_cols[numCols - 1]` and `pivot_cols[numPivotCols - j - 1]`; the index does
not exist when `n < j + 1`. -/
def read_back (arr : List Nat) (j : Nat) : Option Nat :=
  if j + 1 ≤ arr.length then arr[arr.length - j - 1]? else none

/-- Lines 169-170: finds the physical row and moves it to logical row `p`. -/
def move_row_to (mat : Bmat) (phys dst : Nat) : Option Bmat := do
  let set ← cells mat.roworder 0 mat.m
  let logical ← isIn phys set
  matpbm_moveRow mat logical dst

/-- Lines 175-176 and 183-184: finds the physical column and moves it. -/
def move_col_to (mat : Bmat) (phys dst : Nat) : Option Bmat := do
  let set ← cells mat.colorder 0 mat.m
  let logical ← isIn phys set
  matpbm_moveCol mat logical dst

/-- Lines 140-142: `s = 0; if (min == 1) s = n_intersect[col];`. -/
def singleton_count (n_intersect : Scratch) (min col : Nat) : Option Nat :=
  if min = 1 then n_intersect.read col else some 0

/-- Lines 140-188: commits the block. -/
def commit (mat : Bmat) (pivot_cols : List Nat) (blk : Nat) (n_nz n_intersect : Scratch)
    (min col : Nat) (a_rows : List Nat) : Option Bmat := do
  let s0 ← singleton_count n_intersect min col
  let s := if blk < s0 then blk else s0
  let a_rows ← select_rows mat n_nz min col (mat.m - mat.active.p) 0 0 a_rows
  let rows ← (List.range s).mapM (fun i => do
    let r ← a_rows[i]?
    mat.roworder[r]?)
  let pivots ← pivot_cols.mapM (fun c => mat.colorder[c]?)
  let mat1 ← rows.foldlM (fun mt r => move_row_to mt r mt.active.p) mat
  let mat2 ← (List.range s).foldlM
    (fun mt j => do
      let pc ← read_back pivots j
      move_col_to mt pc mt.active.p) mat1
  let spikes := blk - s
  let mat3 ← (List.range spikes).foldlM
    (fun mt j => do
      let pc ← pivots[j]?
      move_col_to mt pc (mt.m - mt.active.q - 1)) mat2
  pure { mat3 with active := { mat3.active with p := mat3.active.p + s,
                                                 q := mat3.active.q + spikes } }

/-- How one pass through the body of the inner `while (1)` ends. -/
inductive Step where
  | next (pivot_cols : List Nat) (blk : Nat)
  | done (mat : Bmat)
deriving DecidableEq, Repr

/-- Lines 91-95: `min` and the block size (the local variable `m`, 0 until it
is fixed at the first pass). -/
def min_of (n_nz : Scratch) (a_rows : List Nat) : Option Nat := do
  let r0 ← a_rows[0]?
  n_nz.read r0

/-- Line 95: `MIN(min, mat->m - p - q)` at the first pass. -/
def block_size (mat : Bmat) (blk min : Nat) : Nat :=
  if blk = 0 then Nat.min min (mat.m - mat.active.p - mat.active.q) else blk

/-- Lines 133-190: after the second sort. -/
def after_col_sort (mat : Bmat) (pivot_cols : List Nat) (blk : Nat)
    (n_nz n_intersect : Scratch) (min : Nat) (a_rows a_cols : List Nat) : Option Step := do
  let col ← read_back a_cols 0
  let pivot_cols := pivot_cols ++ [col]
  if min = 1 ∨ pivot_cols.length = blk then
    let mat1 ← commit mat pivot_cols blk n_nz n_intersect min col a_rows
    pure (Step.done mat1)
  else pure (Step.next pivot_cols blk)

/-- Lines 91-190: after the first sort. -/
def after_row_sort (srt : Sorter) (mat : Bmat) (pivot_cols : List Nat) (blk : Nat)
    (n_nz : Scratch) (a_rows a_cols : List Nat) : Option Step := do
  let min ← min_of n_nz a_rows
  let blk := block_size mat blk min
  let n_intersect ← init_cols mat n_nz min a_rows a_cols (List.replicate mat.m none)
  let a_cols ← qsort_r srt a_cols n_intersect
  after_col_sort mat pivot_cols blk n_nz n_intersect min a_rows a_cols

/-- Lines 61-190: one pass through the body of the inner loop. The scratch
arrays start each pass unwritten. -/
def inner_body (srt : Sorter) (mat : Bmat) (pivot_cols : List Nat) (blk : Nat) :
    Option Step := do
  let a_cols := activeCols mat pivot_cols
  let n_nz ← init_rows mat a_cols (activeRows mat) (List.replicate mat.m none)
  let a_rows ← qsort_r srt (activeRows mat) n_nz
  after_row_sort srt mat pivot_cols blk n_nz a_rows a_cols

/-- Lines 59-192: the inner `while (1)`. -/
def inner_loop (srt : Sorter) (mat : Bmat) : Nat → List Nat → Nat → Option Bmat
  | 0, _, _ => none
  | fuel + 1, pivot_cols, blk =>
    match inner_body srt mat pivot_cols blk with
    | none => none
    | some (Step.next pc b) => inner_loop srt mat fuel pc b
    | some (Step.done mat1) => some mat1

/-- Lines 52-198: the outer loop. Next to the matrix it records the value of
`active.p` after each block commit. -/
def outer_loop (srt : Sorter) (ifuel : Nat) : Nat → Bmat → List Nat → Option (Bmat × List Nat)
  | fuel, mat, blocks =>
    if mat.active.p + mat.active.q < mat.m then
      match fuel with
      | 0 => none
      | fuel + 1 =>
        match inner_loop srt mat ifuel [] 0 with
        | none => none
        | some mat1 => outer_loop srt ifuel fuel mat1 (blocks ++ [mat1.active.p])
    else some (mat, blocks)

/-- The function `hr_transform` with `fuel` passes allowed to each loop,
returning the matrix and the recorded block boundaries. -/
def hr_run (srt : Sorter) (fuel : Nat) (mat : Bmat) : Option (Bmat × List Nat) :=
  outer_loop srt fuel fuel { mat with active := { mat.active with p := 0, q := 0 } } []

/-- The function `hr_transform`. -/
def hr_transform (srt : Sorter) (mat : Bmat) : Option Bmat :=
  (hr_run srt mat.m mat).map Prod.fst

/-! ## The PBM codec of `matpbm.c`

A stream is the list of its bytes. The loader returns `none` where the C
program's behaviour is not defined (a read of `m` or `n` that `sscanf` did not
assign, a number that does not fit an `int`, a negative size), `some none`
where it returns `NULL`, and `some (some mat)` where it returns a matrix.
Allocation is taken to succeed, and the diagnostic lines written to `stderr`
are left out, the density `(double)pos / (double)(m*m)` of the last one
included. -/

/-- The macro `MAX_LINE`. -/
def MAX_LINE : Nat := 4096

/-- The macro `PBM_HEADER_COMMENT`, as bytes. -/
def PBM_HEADER_COMMENT : List Nat :=
  "CREATOR: Rareman matrix transform demo, https://github.com/mickymuis/rareman".toList.map
    Char.toNat

/-- The conversion `%ld` of `fprintf` for a value that is not negative: its
decimal digits, the most significant first. -/
def print_dec (n : Nat) : List Nat :=
  if n = 0 then [48] else (Nat.digits 10 n).reverse.map (fun d => d + 48)

/-- The call `fprintf(f, "P4\n# %s\n%ld %ld\n", PBM_HEADER_COMMENT, m, m)`. -/
def write_header (m : Nat) : List Nat :=
  [80, 52, 10, 35, 32] ++ PBM_HEADER_COMMENT ++ [10] ++ print_dec m ++ [32] ++ print_dec m ++ [10]

/-- The loop over `jj` of `matpbm_writeToStream` for one row, with `n` columns
left and the loop's `block` and `blockPos`: the bytes written and the final
`block` and `blockPos`. The `char block` is kept as its byte value. -/
def write_cols (mat : Bmat) (ptr len : Nat) :
    Nat → Nat → Nat → Nat → Option (List Nat × Nat × Nat)
  | _, 0, block, blockPos => some ([], block, blockPos)
  | jj, n + 1, block, blockPos => do
    let j ← mat.colorder[jj]?
    let x ← isNZ_scan mat.colind j ptr (scan_count ptr len)
    let block1 := if x then block ||| (128 >>> blockPos) else block
    if blockPos + 1 = 8 then do
      let r ← write_cols mat ptr len (jj + 1) n 0 0
      pure (block1 :: r.1, r.2.1, r.2.2)
    else write_cols mat ptr len (jj + 1) n block1 (blockPos + 1)

/-- The lines `if (blockPos != 0) fprintf(f, "%c", block)` after the loop over
`jj`: the last, partial block is written too. -/
def flush_block (r : List Nat × Nat × Nat) : List Nat :=
  if r.2.2 ≠ 0 then r.1 ++ [r.2.1] else r.1

/-- One pass of the loop over `ii` of `matpbm_writeToStream`: the bytes of
logical row `ii`, the last one a partial block when `m` is not a multiple of 8. -/
def write_row (mat : Bmat) (ii : Nat) : Option (List Nat) := do
  let i ← mat.roworder[ii]?
  let ptr ← mat.rowptr[i]?
  let len ← mat.rowlen[i]?
  let r ← write_cols mat ptr len 0 mat.m 0 0
  pure (flush_block r)

/-- The loop over `ii` of `matpbm_writeToStream`, with `n` rows left. -/
def write_rows (mat : Bmat) : Nat → Nat → Option (List Nat)
  | _, 0 => some []
  | ii, n + 1 => do
    let row ← write_row mat ii
    let rest ← write_rows mat (ii + 1) n
    pure (row ++ rest)

/-- The function `matpbm_writeToStream` on a stream that is not `NULL`: the
bytes it writes. -/
def matpbm_writeToStream (mat : Bmat) : Option (List Nat) := do
  let body ← write_rows mat 0 mat.m
  pure (write_header mat.m ++ body)

/-- The bytes `fgets` stores when it may still store `k` of them, and the rest
of the stream: it stops after a newline. -/
def fgets_aux : Nat → List Nat → List Nat × List Nat
  | 0, s => ([], s)
  | _ + 1, [] => ([], [])
  | k + 1, c :: s =>
    if c = 10 then ([c], s) else (c :: (fgets_aux k s).1, (fgets_aux k s).2)

/-- The call `fgets(line, n, f)`: `none` is the result `NULL` at the end of
the stream. -/
def fgets (n : Nat) (s : List Nat) : Option (List Nat × List Nat) :=
  if s = [] then none else some (fgets_aux (n - 1) s)

/-- The C string in a buffer: the bytes before the first `NUL`. -/
def cstr (line : List Nat) : List Nat := line.takeWhile (fun c => decide (c ≠ 0))

/-- The test `isspace`. -/
def is_space (c : Nat) : Bool := decide (c = 32 ∨ (9 ≤ c ∧ c ≤ 13))

/-- The test `isdigit`. -/
def is_digit (c : Nat) : Bool := decide (48 ≤ c ∧ c ≤ 57)

/-- The value of a run of decimal digits. -/
def digits_value (ds : List Nat) : Nat := ds.foldl (fun a c => a * 10 + (c - 48)) 0

/-- The sign that `%d` reads: whether it is `-`, and the rest of the input. -/
def scan_sign : List Nat → Bool × List Nat
  | 45 :: t => (true, t)
  | 43 :: t => (false, t)
  | s => (false, s)

/-- The conversion `%d` of `sscanf`: white space, a sign, decimal digits.
`none` when there are no digits (nothing is assigned) or the number does not
fit an `int`. -/
def scan_int (s : List Nat) : Option (Int × List Nat) :=
  if ((scan_sign (s.dropWhile is_space)).2.takeWhile is_digit) = [] then none
  else if (if (scan_sign (s.dropWhile is_space)).1
        then -(digits_value ((scan_sign (s.dropWhile is_space)).2.takeWhile is_digit) : Int)
        else (digits_value ((scan_sign (s.dropWhile is_space)).2.takeWhile is_digit) : Int))
      < -(2 ^ 31) then none
  else if (2 : Int) ^ 31 ≤ (if (scan_sign (s.dropWhile is_space)).1
        then -(digits_value ((scan_sign (s.dropWhile is_space)).2.takeWhile is_digit) : Int)
        else (digits_value ((scan_sign (s.dropWhile is_space)).2.takeWhile is_digit) : Int))
    then none
  else some (if (scan_sign (s.dropWhile is_space)).1
      then -(digits_value ((scan_sign (s.dropWhile is_space)).2.takeWhile is_digit) : Int)
      else (digits_value ((scan_sign (s.dropWhile is_space)).2.takeWhile is_digit) : Int),
    (scan_sign (s.dropWhile is_space)).2.dropWhile is_digit)

/-- The call `sscanf(line, "%d %d\n", &m, &n)` with `m` and `n` not
initialised: the values of `m` and `n` after it, `none` when one of them was
not assigned (the comparison `m != n` that follows is then not defined). -/
def sscanf_dims (line : List Nat) : Option (Int × Int) :=
  match scan_int line with
  | none => none
  | some (m, r) =>
    match scan_int r with
    | none => none
    | some (n, _) => some (m, n)

/-- The header loop of `matpbm_loadFromStream`, with the value of `has_magic`:
`some none` when `fgets` meets the end of the stream, else `m`, `n` and the rest
of the stream. Each pass reads at least one byte, so `fuel` above the length
of the stream is never used up. -/
def read_header : Nat → Bool → List Nat → Option (Option ((Int × Int) × List Nat))
  | 0, _, _ => none
  | fuel + 1, has_magic, s =>
    match fgets MAX_LINE s with
    | none => some none
    | some (line, rest) =>
      if line.head? = some 35 then read_header fuel has_magic rest
      else if cstr line = [80, 52, 10] then read_header fuel true rest
      else if has_magic then
        match sscanf_dims (cstr line) with
        | none => none
        | some d => some (some (d, rest))
      else read_header fuel has_magic rest

/-- The assignment `mat->colind[pos] = j`. The array holds the cells written so
far; `pos` is at most their number, and falls below it only after `pos` has
wrapped. -/
def store (colind : List Nat) (pos j : Nat) : List Nat :=
  if pos < colind.length then colind.set pos j else colind ++ [j]

/-- The loop `for (j = bj*8; j < n && j < bj*8+8; j++)` over the bits of one
byte, with `k` of the 8 passes left; the state is `colind`, `pos` (an `idx_t`,
so `pos++` wraps at `2^32`) and `len` (at most `n`). -/
def load_block (block n : Nat) :
    Nat → Nat → Nat → List Nat × Nat × Nat → List Nat × Nat × Nat
  | _, 0, _, st => st
  | j, k + 1, mask, st =>
    if j < n then
      load_block block n (j + 1) k (mask >>> 1)
        (if block &&& mask ≠ 0 then (store st.1 st.2.1 j, (st.2.1 + 1) % 2 ^ 32, st.2.2 + 1)
          else st)
    else st

/-- The loop over `bj` for one row, with `k` bytes left to read: `none` when
`fgetc` meets the end of the stream. -/
def load_row (n : Nat) : Nat → Nat → List Nat → List Nat × Nat × Nat →
    Option (List Nat × List Nat × Nat × Nat)
  | _, 0, s, st => some (s, st)
  | _, _ + 1, [], _ => none
  | bj, k + 1, c :: s, st => load_row n (bj + 1) k s (load_block c n (bj * 8) 8 128 st)

/-- The loop over the rows, with `k` rows left: `rowptr`, `rowlen`, `colind`
and `pos` at the end, `none` at the end of the stream. -/
def load_rows (n b : Nat) : Nat → List Nat → List Nat → Nat →
    Option (List Nat × List Nat × List Nat × Nat)
  | 0, _, colind, pos => some ([], [], colind, pos)
  | k + 1, s, colind, pos =>
    match load_row n 0 b s (colind, pos, 0) with
    | none => none
    | some (s1, st) =>
      match load_rows n b k s1 st.1 st.2.1 with
      | none => none
      | some r => some (pos :: r.1, st.2.2 :: r.2.1, r.2.2.1, r.2.2.2)

/-- The state of the loader after the writes `colind[pos++] = j; len++` for the
columns `js` in turn. -/
def stores (st : List Nat × Nat × Nat) (js : List Nat) : List Nat × Nat × Nat :=
  js.foldl (fun st j => (store st.1 st.2.1 j, (st.2.1 + 1) % 2 ^ 32, st.2.2 + 1)) st

/-- The columns that `load_block` writes for the byte `block`: those `j` below
`n` among the `k` still to visit whose bit, `q` places from the most
significant one, is set. -/
def block_cols (block n : Nat) : Nat → Nat → Nat → List Nat
  | _, 0, _ => []
  | j, k + 1, q =>
    if j < n then
      (if block.testBit (7 - q) then [j] else []) ++ block_cols block n (j + 1) k (q + 1)
    else []

/-- The columns that `load_row` writes for the bytes of a row, from byte
number `bj` on. -/
def row_cols_from (n : Nat) : Nat → List Nat → List Nat
  | _, [] => []
  | bj, c :: s => block_cols c n (bj * 8) 8 0 ++ row_cols_from n (bj + 1) s

/-- The lines `fgets` returns one after the other, each with the rest of the
stream after it. -/
def stream_lines : Nat → List Nat → List (List Nat × List Nat)
  | 0, _ => []
  | fuel + 1, s =>
    match fgets MAX_LINE s with
    | none => []
    | some (line, rest) => (line, rest) :: stream_lines fuel rest

/-- The dimension line among the lines of a stream, with the rest of the
stream after it: the first line after a line equal to `"P4\n"` that is neither
a comment (first byte `#`) nor equal to `"P4\n"`. -/
def dimension_line (has_magic : Bool) :
    List (List Nat × List Nat) → Option (List Nat × List Nat)
  | [] => none
  | (line, rest) :: t =>
    if line.head? = some 35 then dimension_line has_magic t
    else if cstr line = [80, 52, 10] then dimension_line true t
    else if has_magic then some (line, rest)
    else dimension_line has_magic t

/-- The function `matpbm_loadFromStream` on a stream that is not `NULL`. -/
def matpbm_loadFromStream (s : List Nat) : Option (Option Bmat) :=
  match read_header (s.length + 1) false s with
  | none => none
  | some none => some none
  | some (some ((m, n), rest)) =>
    if m ≠ n then some none
    else if m < 0 then none
    else
      match load_rows m.toNat (m.toNat / 8 + (if m.toNat % 8 ≠ 0 then 1 else 0)) m.toNat rest
          [] 0 with
      | none => some none
      | some r =>
        some (some { rowptr := r.1, rowlen := r.2.1, colind := r.2.2.1, m := m.toNat,
                     nz := r.2.2.2, roworder := List.range m.toNat,
                     colorder := List.range m.toNat, active := ⟨0, 0, 0⟩ })

/-! ## Well-formed matrices -/

/-- The fields `m`, `nz`, `rowptr`, `rowlen`, `colind`: the sparsity pattern. -/
def topology (mat : Bmat) : Nat × Nat × List Nat × List Nat × List Nat :=
  (mat.m, mat.nz, mat.rowptr, mat.rowlen, mat.colind)

/-- The slice of physical row `i`, read without bound checks. -/
def sliceOf (mat : Bmat) (i : Nat) : List Nat :=
  (mat.colind.drop (mat.rowptr.getD i 0)).take (mat.rowlen.getD i 0)

/-- A well-formed square matrix: size below `2^31`, one `rowptr` and `rowlen`
cell per row, every row slice inside `colind` with column indices below `m`,
and `roworder`, `colorder` permutations of `[0, m)`. -/
structure WellFormed (mat : Bmat) : Prop where
  m_lt : mat.m < 2 ^ 31
  rowptr_len : mat.rowptr.length = mat.m
  rowlen_len : mat.rowlen.length = mat.m
  slice_le : ∀ i, i < mat.m → mat.rowptr.getD i 0 + mat.rowlen.getD i 0 ≤ mat.colind.length
  col_lt : ∀ i, i < mat.m → ∀ j ∈ sliceOf mat i, j < mat.m
  row_perm : mat.roworder.Perm (List.range mat.m)
  col_perm : mat.colorder.Perm (List.range mat.m)

/-- Physical nonzero test: column `j` occurs in the slice of physical row `i`. -/
def PNZ (mat : Bmat) (i j : Nat) : Bool := decide (j ∈ sliceOf mat i)

/-- Logical nonzero test through the two order arrays. -/
def NZ (mat : Bmat) (row col : Nat) : Bool :=
  PNZ mat (mat.roworder.getD row 0) (mat.colorder.getD col 0)

/-- The columns the loader writes for the logical rows `ii .. ii + k` of a
matrix that was written to the stream, row after row. -/
def cols_from (mat : Bmat) : Nat → Nat → List Nat
  | _, 0 => []
  | ii, k + 1 => (List.range mat.m).filter (fun j => NZ mat ii j) ++ cols_from mat (ii + 1) k

/-- The list `[0, .., n-1]` written `k` times over. -/
def repeat_range (n : Nat) : Nat → List Nat
  | 0 => []
  | k + 1 => List.range n ++ repeat_range n k

/-- Bit `q` of a run of bytes, counted from the most significant bit of the
first byte. -/
def outbit (out : List Nat) (q : Nat) : Bool := (out.getD (q / 8) 0).testBit (7 - q % 8)

/-- The array `B` is `A` with the entry at index `a` taken out and put back at
index `b`: the entries between the two positions shift one cell toward `a`,
the others stay, and the other entries keep their relative order. -/
def IsRotation (A B : List Nat) (a b : Nat) : Prop :=
  B.length = A.length ∧ B[b]? = A[a]? ∧
  (∀ k, a ≤ k → k < b → B[k]? = A[k + 1]?) ∧
  (∀ k, b < k → k ≤ a → B[k]? = A[k - 1]?) ∧
  (∀ k, (k < a ∧ k < b) ∨ (a < k ∧ b < k) → B[k]? = A[k]?) ∧
  B.eraseIdx b = A.eraseIdx a

/-! ## Specification-level functions used to state what the loops compute -/

/-- The array after the entry `v` is moved to index `p` from further right. -/
def toFront (p : Nat) (A : List Nat) (v : Nat) : List Nat :=
  A.take p ++ v :: (A.drop p).filter (fun x => decide (x ≠ v))

/-- The array after the entry `v` is moved to index `t` from further left. -/
def toBack (t : Nat) (A : List Nat) (v : Nat) : List Nat :=
  (A.take (t + 1)).filter (fun x => decide (x ≠ v)) ++ v :: A.drop (t + 1)

/-- Every array the sort may return: the ascending permutations of `base`.
`none` when a magnitude is unwritten or not below `2^31`. -/
def sort_results (base : List Nat) (magnitude : Scratch) : Option (List (List Nat)) :=
  if base.all (fun e => ((magnitude.read e).map (fun v => decide (v < 2 ^ 31))).getD false) then
    some (base.permutations'.filter (fun l => decide (l.Pairwise
      (fun a b => (magnitude.read a).getD 0 ≤ (magnitude.read b).getD 0))))
  else none

/-- Every outcome of `after_row_sort`. -/
def after_row_sort_all (mat : Bmat) (pivot_cols : List Nat) (blk : Nat)
    (n_nz : Scratch) (a_rows a_cols : List Nat) : List (Option Step) :=
  match min_of n_nz a_rows with
  | none => [none]
  | some mn =>
    match init_cols mat n_nz mn a_rows a_cols (List.replicate mat.m none) with
    | none => [none]
    | some n_intersect =>
      match sort_results a_cols n_intersect with
      | none => [none]
      | some cands => cands.map (fun cs =>
          after_col_sort mat pivot_cols (block_size mat blk mn) n_nz n_intersect mn a_rows cs)

/-- Every outcome of `inner_body`. -/
def inner_body_all (mat : Bmat) (pivot_cols : List Nat) (blk : Nat) : List (Option Step) :=
  match init_rows mat (activeCols mat pivot_cols) (activeRows mat)
      (List.replicate mat.m none) with
  | none => [none]
  | some n_nz =>
    match sort_results (activeRows mat) n_nz with
    | none => [none]
    | some cands => cands.flatMap (fun rs =>
        after_row_sort_all mat pivot_cols blk n_nz rs (activeCols mat pivot_cols))

/-- Every outcome of `inner_loop`. -/
def inner_loop_all (mat : Bmat) : Nat → List Nat → Nat → List (Option Bmat)
  | 0, _, _ => [none]
  | fuel + 1, pivot_cols, blk =>
    (inner_body_all mat pivot_cols blk).dedup.flatMap (fun st =>
      match st with
      | none => [none]
      | some (Step.next pc b) => inner_loop_all mat fuel pc b
      | some (Step.done mat1) => [some mat1])

/-- Every outcome of `outer_loop`, without the recorded boundaries. -/
def outer_loop_all (ifuel : Nat) : Nat → Bmat → List (Option Bmat)
  | fuel, mat =>
    if mat.active.p + mat.active.q < mat.m then
      match fuel with
      | 0 => [none]
      | fuel + 1 =>
        (inner_loop_all mat ifuel [] 0).dedup.flatMap (fun st =>
          match st with
          | none => [none]
          | some mat1 => outer_loop_all ifuel fuel mat1)
    else [some mat]

/-- Every outcome of `hr_transform`. -/
def hr_transform_all (mat : Bmat) : List (Option Bmat) :=
  (outer_loop_all mat.m mat.m { mat with active := { mat.active with p := 0, q := 0 } }).dedup

/-! ## Concrete inputs -/

/-- A sorting routine: insertion sort by magnitude. -/
def isort : Sorter := fun mag l => l.insertionSort (fun a b => mag a ≤ mag b)

/-- The dense `n x n` matrix whose rows all use the one slice `colind[0 .. n)`,
with identity orderings. -/
def dense_shared (n : Nat) : Bmat :=
  { rowptr := List.replicate n 0, rowlen := List.replicate n n, colind := List.range n, m := n,
    nz := n, roworder := List.range n, colorder := List.range n, active := ⟨0, 0, 0⟩ }

/-- The dense `n x n` matrix as `matpbm_loadFromStream` lays it out: physical
row `i` holds the columns `0, .., n-1` in `colind[i*n .. (i+1)*n)`. -/
def dense (n : Nat) : Bmat :=
  { rowptr := (List.range n).map (fun i => i * n), rowlen := List.replicate n n,
    colind := repeat_range n n, m := n, nz := n * n, roworder := List.range n,
    colorder := List.range n, active := ⟨0, 0, 0⟩ }

/-- The 2x2 identity pattern with identity orderings. -/
def ident2 : Bmat :=
  { rowptr := [0, 1], rowlen := [1, 1], colind := [0, 1], m := 2, nz := 2,
    roworder := [0, 1], colorder := [0, 1], active := ⟨0, 0, 0⟩ }

/-- The 3x3 fully dense matrix with identity orderings. -/
def dense3 : Bmat :=
  { rowptr := [0, 3, 6], rowlen := [3, 3, 3], colind := [0, 1, 2, 0, 1, 2, 0, 1, 2], m := 3,
    nz := 9, roworder := [0, 1, 2], colorder := [0, 1, 2], active := ⟨0, 0, 0⟩ }

/-- The 4x4 lower bidiagonal matrix with rows `{0}`, `{0,1}`, `{1,2}`, `{2,3}`
and identity orderings. -/
def bidiag4 : Bmat :=
  { rowptr := [0, 1, 3, 5], rowlen := [1, 2, 2, 2], colind := [0, 0, 1, 1, 2, 2, 3], m := 4,
    nz := 7, roworder := [0, 1, 2, 3], colorder := [0, 1, 2, 3], active := ⟨0, 0, 0⟩ }

end Rareman

/-! ## Lemmas on `arrayMove` -/

namespace Rareman

theorem set_zero_drop (A : List Nat) (b v : Nat) (hb : b < A.length) :
    (A.drop b).set 0 v = v :: A.drop (b + 1) := by
  rw [List.drop_eq_getElem_cons hb]; rfl

theorem arrayMove_self (A : List Nat) (a : Nat) : arrayMove A a a = some A := by
  simp [arrayMove]

theorem arrayMove_lt (A : List Nat) (a b : Nat) (hab : a < b) (hb : b < A.length) :
    arrayMove A a b =
      some (A.take a ++ ((A.drop (a + 1)).take (b - a) ++ A[a] :: A.drop (b + 1))) := by
  have ha : a < A.length := by omega
  have hne : a ≠ b := by omega
  unfold arrayMove memmove
  simp only [hne, if_false, List.getElem?_eq_getElem ha, hab, if_true, Option.bind_eq_bind,
    Option.some_bind]
  have h1 : a + 1 + (b - a) ≤ A.length ∧ a + (b - a) ≤ A.length := by omega
  simp only [h1, and_self, if_true, Option.some_bind]
  have hlen : (A.take a ++ (A.drop (a + 1)).take (b - a)
      ++ A.drop (a + (b - a))).length = A.length := by
    simp; omega
  rw [if_pos (by rw [hlen]; exact hb)]
  have hab2 : a + (b - a) = b := by omega
  rw [hab2, List.append_assoc]
  rw [List.set_append_right _ _ (by simp; omega)]
  rw [List.set_append_right _ _ (by simp; omega)]
  have : b - (A.take a).length - ((A.drop (a + 1)).take (b - a)).length = 0 := by simp; omega
  rw [this, set_zero_drop A b _ hb]

theorem arrayMove_gt (A : List Nat) (a b : Nat) (hba : b < a) (ha : a < A.length) :
    arrayMove A a b =
      some (A.take b ++ (A[a] :: ((A.drop b).take (a - b) ++ A.drop (a + 1)))) := by
  have hb : b < A.length := by omega
  have hne : a ≠ b := by omega
  have hnl : ¬ a < b := by omega
  unfold arrayMove memmove
  simp only [hne, if_false, List.getElem?_eq_getElem ha, hnl, Option.bind_eq_bind,
    Option.some_bind]
  have h1 : b + (a - b) ≤ A.length ∧ b + 1 + (a - b) ≤ A.length := by omega
  simp only [h1, and_self, if_true, Option.some_bind]
  have hlen : (A.take (b + 1) ++ (A.drop b).take (a - b)
      ++ A.drop (b + 1 + (a - b))).length = A.length := by
    simp; omega
  rw [if_pos (by rw [hlen]; exact hb)]
  have hab2 : b + 1 + (a - b) = a + 1 := by omega
  rw [hab2, List.append_assoc, List.take_succ, List.getElem?_eq_getElem hb]
  simp only [Option.toList, List.append_assoc, List.singleton_append]
  rw [List.set_append_right _ _ (by simp)]
  have : b - (A.take b).length = 0 := by simp; omega
  rw [this]
  rfl

/-- The entries of a rotated array, cell by cell. -/
theorem getElem?_rot_lt (A : List Nat) (a b k : Nat) (hab : a < b) (hb : b < A.length) :
    (A.take a ++ ((A.drop (a + 1)).take (b - a) ++ A[a] :: A.drop (b + 1)))[k]? =
      if k < a then A[k]? else if k < b then A[k + 1]? else if k = b then A[a]? else A[k]? := by
  have ha : a < A.length := by omega
  simp only [List.getElem?_append, List.length_take, List.length_drop, List.getElem?_take,
    List.getElem?_drop, List.getElem?_cons]
  have e1 : min a A.length = a := by omega
  have e2 : min (b - a) (A.length - (a + 1)) = b - a := by omega
  rw [e1, e2]
  by_cases h1 : k < a
  · simp [h1]
  · by_cases h2 : k < b
    · have : k - a < b - a := by omega
      simp only [h1, h2, this, if_true, if_false]
      congr 1; omega
    · have : ¬ k - a < b - a := by omega
      simp only [h1, h2, this, if_false]
      by_cases h3 : k = b
      · subst h3
        simp [List.getElem?_eq_getElem ha]
      · have : ¬ k - a - (b - a) = 0 := by omega
        simp only [this, h3, if_false]
        congr 1; omega

theorem getElem?_rot_gt (A : List Nat) (a b k : Nat) (hba : b < a) (ha : a < A.length) :
    (A.take b ++ (A[a] :: ((A.drop b).take (a - b) ++ A.drop (a + 1))))[k]? =
      if k < b then A[k]? else if k = b then A[a]? else if k ≤ a then A[k - 1]? else A[k]? := by
  have hb : b < A.length := by omega
  simp only [List.getElem?_append, List.length_take, List.length_drop, List.getElem?_take,
    List.getElem?_drop, List.getElem?_cons]
  have e1 : min b A.length = b := by omega
  have e2 : min (a - b) (A.length - b) = a - b := by omega
  rw [e1, e2]
  by_cases h1 : k < b
  · simp [h1]
  · by_cases h3 : k = b
    · subst h3
      simp [List.getElem?_eq_getElem ha]
    · have : ¬ k - b = 0 := by omega
      simp only [h1, h3, this, if_false]
      by_cases h2 : k ≤ a
      · have : k - b - 1 < a - b := by omega
        simp only [h2, this, if_true]
        congr 1; omega
      · have : ¬ k - b - 1 < a - b := by omega
        simp only [h2, this, if_false]
        congr 1; omega

theorem arrayMove_rotation (A : List Nat) (a b : Nat) (ha : a < A.length) (hb : b < A.length) :
    ∃ B, arrayMove A a b = some B ∧ IsRotation A B a b := by
  rcases Nat.lt_trichotomy a b with hab | hab | hab
  · refine ⟨_, arrayMove_lt A a b hab hb, ?_⟩
    have key := fun k => getElem?_rot_lt A a b k hab hb
    refine ⟨by simp; omega, ?_, ?_, ?_, ?_, ?_⟩
    · rw [key]; simp; omega
    · intro k h1 h2; rw [key]; simp [h2]; omega
    · intro k h1 h2; omega
    · intro k h; rw [key]
      rcases h with ⟨h1, h2⟩ | ⟨h1, h2⟩
      · simp [h1]
      · have : ¬ k < a := by omega
        have : ¬ k < b := by omega
        have : k ≠ b := by omega
        simp [*]
    · apply List.ext_getElem?
      intro k
      rw [List.getElem?_eraseIdx, List.getElem?_eraseIdx, key, key]
      by_cases h1 : k < a
      · have : k < b := by omega
        simp [*]
      · by_cases h2 : k < b
        · simp [*]
        · have : ¬ k + 1 < a := by omega
          have : ¬ k + 1 < b := by omega
          have : k + 1 ≠ b := by omega
          simp [*]
  · subst hab
    refine ⟨A, arrayMove_self A a, rfl, rfl, ?_, ?_, ?_, rfl⟩
    · intro k h1 h2; omega
    · intro k h1 h2; omega
    · intro k _; rfl
  · refine ⟨_, arrayMove_gt A a b hab ha, ?_⟩
    have key := fun k => getElem?_rot_gt A a b k hab ha
    refine ⟨by simp; omega, ?_, ?_, ?_, ?_, ?_⟩
    · rw [key]; simp
    · intro k h1 h2; omega
    · intro k h1 h2; rw [key]
      have : ¬ k < b := by omega
      have : k ≠ b := by omega
      simp [*]
    · intro k h; rw [key]
      rcases h with ⟨h1, h2⟩ | ⟨h1, h2⟩
      · simp [h2]
      · have : ¬ k < b := by omega
        have : ¬ k ≤ a := by omega
        have : k ≠ b := by omega
        simp [*]
    · apply List.ext_getElem?
      intro k
      rw [List.getElem?_eraseIdx, List.getElem?_eraseIdx, key, key]
      by_cases h1 : k < b
      · have : k < a := by omega
        simp [*]
      · by_cases h2 : k < a
        · have : k + 1 ≠ b := by omega
          have : ¬ k + 1 < b := by omega
          have : k + 1 ≤ a := by omega
          simp [*]
        · have : ¬ k + 1 < b := by omega
          have : ¬ k + 1 ≤ a := by omega
          have : k + 1 ≠ b := by omega
          simp [*]

end Rareman

/-! ## Lemmas on `isIn`, `rowHas` and `matpbm_isNZ` -/

namespace Rareman

theorem getElem?_eq_some_getD (l : List Nat) (i : Nat) (h : i < l.length) :
    l[i]? = some (l.getD i 0) := by
  simp [List.getD_eq_getElem?_getD, List.getElem?_eq_getElem h]

namespace WellFormed

variable {mat : Bmat}

theorem row_len (h : WellFormed mat) : mat.roworder.length = mat.m := by
  simpa using h.row_perm.length_eq

theorem col_len (h : WellFormed mat) : mat.colorder.length = mat.m := by
  simpa using h.col_perm.length_eq

theorem row_mem (h : WellFormed mat) {x : Nat} : x ∈ mat.roworder ↔ x < mat.m := by
  rw [h.row_perm.mem_iff, List.mem_range]

theorem col_mem (h : WellFormed mat) {x : Nat} : x ∈ mat.colorder ↔ x < mat.m := by
  rw [h.col_perm.mem_iff, List.mem_range]

theorem row_get (h : WellFormed mat) {r : Nat} (hr : r < mat.m) :
    mat.roworder[r]? = some (mat.roworder.getD r 0) ∧ mat.roworder.getD r 0 < mat.m := by
  have hl : r < mat.roworder.length := by rw [h.row_len]; exact hr
  have e : mat.roworder.getD r 0 = mat.roworder[r] := by
    simp [List.getD_eq_getElem?_getD, List.getElem?_eq_getElem hl]
  refine ⟨by rw [e, List.getElem?_eq_getElem hl], ?_⟩
  rw [e]
  exact h.row_mem.mp (List.getElem_mem _)

theorem col_get (h : WellFormed mat) {c : Nat} (hc : c < mat.m) :
    mat.colorder[c]? = some (mat.colorder.getD c 0) ∧ mat.colorder.getD c 0 < mat.m := by
  have hl : c < mat.colorder.length := by rw [h.col_len]; exact hc
  have e : mat.colorder.getD c 0 = mat.colorder[c] := by
    simp [List.getD_eq_getElem?_getD, List.getElem?_eq_getElem hl]
  refine ⟨by rw [e, List.getElem?_eq_getElem hl], ?_⟩
  rw [e]
  exact h.col_mem.mp (List.getElem_mem _)

theorem rowSlice_eq (h : WellFormed mat) {i : Nat} (hi : i < mat.m) :
    rowSlice mat i = some (sliceOf mat i) := by
  have h1 : i < mat.rowptr.length := by rw [h.rowptr_len]; exact hi
  have h2 : i < mat.rowlen.length := by rw [h.rowlen_len]; exact hi
  have hs := h.slice_le i hi
  unfold rowSlice cells sliceOf
  simp only [List.getD_eq_getElem?_getD, List.getElem?_eq_getElem h1,
    List.getElem?_eq_getElem h2, Option.getD_some] at hs ⊢
  simp [hs]

end WellFormed

theorem scan_count_eq (ptr len : Nat) (h : ptr + len < 2 ^ 32) : scan_count ptr len = len := by
  unfold scan_count
  rw [Nat.mod_eq_of_lt h]
  omega

theorem isNZ_scan_eq (colind : List Nat) (j ptr len : Nat) (h : ptr + len ≤ colind.length)
    (hk : ptr + len < 2 ^ 31) :
    isNZ_scan colind j ptr len = some (decide (j ∈ (colind.drop ptr).take len)) := by
  induction len generalizing ptr with
  | zero => simp [isNZ_scan]
  | succ n ih =>
    have hp : ptr < colind.length := by omega
    unfold isNZ_scan
    rw [if_neg (by omega)]
    simp only [List.getElem?_eq_getElem hp, Option.bind_eq_bind, Option.some_bind]
    rw [List.drop_eq_getElem_cons hp, List.take_succ_cons]
    by_cases hc : colind[ptr] = j
    · simp [hc]
    · rw [if_neg hc, if_neg (by omega), ih (ptr + 1) (by omega) (by omega)]
      have : ¬ j = colind[ptr] := fun e => hc e.symm
      simp [this]

theorem WellFormed.isNZ_eq {mat : Bmat} (h : WellFormed mat) (hk : mat.colind.length < 2 ^ 31)
    {row col : Nat} (hr : row < mat.m) (hc : col < mat.m) :
    matpbm_isNZ mat row col = some (NZ mat row col) := by
  obtain ⟨e1, h1⟩ := h.row_get hr
  obtain ⟨e2, _⟩ := h.col_get hc
  have hp := getElem?_eq_some_getD mat.rowptr _ (by rw [h.rowptr_len]; exact h1)
  have hl := getElem?_eq_some_getD mat.rowlen _ (by rw [h.rowlen_len]; exact h1)
  have hs := h.slice_le _ h1
  unfold matpbm_isNZ
  simp only [e1, e2, Option.bind_eq_bind, Option.some_bind, hp, hl]
  rw [scan_count_eq _ _ (by omega), isNZ_scan_eq _ _ _ _ hs (by omega)]
  rfl

end Rareman

/-! ## The scratch arrays and the counting loops of `hr_transform` -/

namespace Rareman

theorem Scratch.read_replicate (n k : Nat) :
    Scratch.read (List.replicate n none) k = none := by
  unfold Scratch.read
  by_cases h : k < n
  · simp [List.getElem?_replicate, h]
  · simp [List.getElem?_replicate, h]

end Rareman

/-! ## The two sorts and the row selection loop -/

namespace Rareman

theorem compare_le_iff (mag : Nat → Nat) (a b : Nat) (ha : mag a < 2 ^ 31) (hb : mag b < 2 ^ 31) :
    compareByMagnitude mag a b ≤ 0 ↔ mag a ≤ mag b := by
  unfold compareByMagnitude toInt32
  norm_num at ha hb ⊢
  split_ifs <;> omega

end Rareman

/-! ## Moving rows and columns to the front and to the border -/

namespace Rareman

end Rareman

/-! ## Generic facts on the monadic loops of the commit -/

namespace Rareman

end Rareman

/-! ## Order arrays as injective maps, and the column moves of a commit -/

namespace Rareman

theorem getD_of_getElem? {A : List Nat} {i x : Nat} (h : A[i]? = some x) : A.getD i 0 = x := by
  simp [List.getD_eq_getElem?_getD, h]

end Rareman

/-! ## The block commit -/

namespace Rareman

end Rareman

/-! ## The block commit, in closed form -/

namespace Rareman

end Rareman

/-! ## One pass through the inner loop -/

namespace Rareman

end Rareman

/-! ## One pass through the inner loop, in closed form -/

namespace Rareman

end Rareman

/-! ## The inner loop ends in a block commit -/

namespace Rareman

end Rareman

/-! ## The matrix after a block commit -/

namespace Rareman

section
variable {mat : Bmat} {rows diag spk : List Nat}

end

end Rareman

/-! ## A block commit keeps the block invariant -/

namespace Rareman

section
variable {mat : Bmat} {rows diag spk : List Nat}

end

end Rareman

/-! ## The outer loop -/

namespace Rareman

end Rareman

/-! ## Concrete sorting routine and concrete matrices -/

namespace Rareman

theorem isort_admissible : Admissible isort := by
  intro mag l hl
  have hperm : (isort mag l).Perm l := List.perm_insertionSort _ l
  refine ⟨hperm, ?_⟩
  haveI : IsTotal Nat (fun a b => mag a ≤ mag b) := ⟨fun a b => Nat.le_total _ _⟩
  haveI : IsTrans Nat (fun a b => mag a ≤ mag b) := ⟨fun a b c hab hbc => Nat.le_trans hab hbc⟩
  have hs : (isort mag l).Pairwise (fun a b => mag a ≤ mag b) :=
    List.sorted_insertionSort (fun a b => mag a ≤ mag b) l
  refine hs.imp_of_mem ?_
  intro a b ha hb hab
  exact (compare_le_iff mag a b (hl a (hperm.mem_iff.mp ha)) (hl b (hperm.mem_iff.mp hb))).mpr hab

theorem ident2_wf : WellFormed ident2 where
  m_lt := by decide
  rowptr_len := by decide
  rowlen_len := by decide
  slice_le := by decide
  col_lt := by decide
  row_perm := by decide
  col_perm := by decide

theorem dense3_wf : WellFormed dense3 where
  m_lt := by decide
  rowptr_len := by decide
  rowlen_len := by decide
  slice_le := by decide
  col_lt := by decide
  row_perm := by decide
  col_perm := by decide

theorem bidiag4_wf : WellFormed bidiag4 where
  m_lt := by decide
  rowptr_len := by decide
  rowlen_len := by decide
  slice_le := by decide
  col_lt := by decide
  row_perm := by decide
  col_perm := by decide

end Rareman

/-! ## The transform under any sorting routine is one of the enumerated outcomes -/

namespace Rareman

theorem sort_results_mem {srt : Sorter} (hadm : Admissible srt) (base : List Nat)
    (scr : Scratch) (cands : List (List Nat)) (h : sort_results base scr = some cands) :
    ∃ l, qsort_r srt base scr = some l ∧ l ∈ cands := by
  unfold sort_results at h
  split at h
  · rename_i hall
    injection h with h
    rw [List.all_eq_true] at hall
    have hv : ∀ e ∈ base, ∃ v, Scratch.read scr e = some v ∧ v < 2 ^ 31 := by
      intro e he
      have := hall e he
      cases hr : Scratch.read scr e with
      | none => simp [hr] at this
      | some v =>
        refine ⟨v, rfl, ?_⟩
        simpa [hr] using this
    have hlt : ∀ e ∈ base, (Scratch.read scr e).getD 0 < 2 ^ 31 := by
      intro e he
      obtain ⟨v, hr, hv2⟩ := hv e he
      rw [hr]
      exact hv2
    obtain ⟨hperm, hsorted⟩ := hadm (fun e => (Scratch.read scr e).getD 0) base hlt
    refine ⟨srt (fun e => (Scratch.read scr e).getD 0) base, ?_, ?_⟩
    · unfold qsort_r
      rw [if_pos]
      rw [List.all_eq_true]
      intro e he
      obtain ⟨v, hr, _⟩ := hv e he
      rw [hr]
      rfl
    · rw [← h, List.mem_filter]
      refine ⟨List.mem_permutations'.mpr hperm, ?_⟩
      rw [decide_eq_true_eq]
      refine hsorted.imp_of_mem ?_
      intro a b ha hb hab
      exact (compare_le_iff _ a b (hlt a (hperm.mem_iff.mp ha)) (hlt b (hperm.mem_iff.mp hb))).mp hab
  · exact absurd h (by simp)

theorem after_row_sort_mem {srt : Sorter} (hadm : Admissible srt) (mat : Bmat) (pc : List Nat)
    (blk : Nat) (n_nz : Scratch) (rs cs : List Nat)
    (hn : none ∉ after_row_sort_all mat pc blk n_nz rs cs) :
    after_row_sort srt mat pc blk n_nz rs cs ∈ after_row_sort_all mat pc blk n_nz rs cs := by
  unfold after_row_sort_all at hn ⊢
  unfold after_row_sort
  rcases h1 : min_of n_nz rs with _ | mn
  · rw [h1] at hn
    simp at hn
  · rw [h1] at hn
    rcases h2 : init_cols mat n_nz mn rs cs (List.replicate mat.m none) with _ | ni
    · simp [h2] at hn
    · rcases h3 : sort_results cs ni with _ | cands
      · simp [h2, h3] at hn
      · obtain ⟨l, hl, hmem⟩ := sort_results_mem hadm cs ni cands h3
        simp only [Option.bind_eq_bind, Option.some_bind, h2, hl, h3]
        exact List.mem_map.mpr ⟨l, hmem, rfl⟩

theorem inner_body_mem {srt : Sorter} (hadm : Admissible srt) (mat : Bmat) (pc : List Nat)
    (blk : Nat) (hn : none ∉ inner_body_all mat pc blk) :
    inner_body srt mat pc blk ∈ inner_body_all mat pc blk := by
  unfold inner_body_all at hn ⊢
  unfold inner_body
  rcases h1 : init_rows mat (activeCols mat pc) (activeRows mat) (List.replicate mat.m none)
    with _ | n_nz
  · simp [h1] at hn
  · rcases h3 : sort_results (activeRows mat) n_nz with _ | cands
    · simp [h1, h3] at hn
    · obtain ⟨l, hl, hmem⟩ := sort_results_mem hadm (activeRows mat) n_nz cands h3
      simp only [h1, h3] at hn
      simp only [Option.bind_eq_bind, Option.some_bind, h1, h3, hl]
      refine List.mem_flatMap.mpr ⟨l, hmem, ?_⟩
      exact after_row_sort_mem hadm mat pc blk n_nz l (activeCols mat pc)
        (fun hx => hn (List.mem_flatMap.mpr ⟨l, hmem, hx⟩))

theorem inner_loop_mem {srt : Sorter} (hadm : Admissible srt) (mat : Bmat) :
    ∀ (fuel : Nat) (pc : List Nat) (blk : Nat), none ∉ inner_loop_all mat fuel pc blk →
      inner_loop srt mat fuel pc blk ∈ inner_loop_all mat fuel pc blk := by
  intro fuel
  induction fuel with
  | zero =>
    intro pc blk hn
    simp [inner_loop_all] at hn
  | succ fuel ih =>
    intro pc blk hn
    unfold inner_loop_all at hn ⊢
    unfold inner_loop
    have hb : none ∉ inner_body_all mat pc blk := by
      intro hx
      apply hn
      exact List.mem_flatMap.mpr ⟨none, List.mem_dedup.mpr hx, by simp⟩
    have hm := inner_body_mem hadm mat pc blk hb
    rcases hst : inner_body srt mat pc blk with _ | st
    · rw [hst] at hm
      exact absurd hm hb
    · rw [hst] at hm
      cases st with
      | next pc2 b2 =>
        have hn2 : none ∉ inner_loop_all mat fuel pc2 b2 := fun hx =>
          hn (List.mem_flatMap.mpr ⟨_, List.mem_dedup.mpr hm, hx⟩)
        exact List.mem_flatMap.mpr ⟨_, List.mem_dedup.mpr hm, ih pc2 b2 hn2⟩
      | done m1 =>
        exact List.mem_flatMap.mpr ⟨_, List.mem_dedup.mpr hm, by simp⟩

theorem outer_loop_mem {srt : Sorter} (hadm : Admissible srt) (ifuel : Nat) :
    ∀ (fuel : Nat) (mat : Bmat) (blocks : List Nat), none ∉ outer_loop_all ifuel fuel mat →
      (outer_loop srt ifuel fuel mat blocks).map Prod.fst ∈ outer_loop_all ifuel fuel mat := by
  intro fuel
  induction fuel with
  | zero =>
    intro mat blocks hn
    unfold outer_loop_all at hn ⊢
    unfold outer_loop
    by_cases hlt : mat.active.p + mat.active.q < mat.m
    · simp [hlt] at hn
    · simp [hlt]
  | succ fuel ih =>
    intro mat blocks hn
    unfold outer_loop_all at hn ⊢
    unfold outer_loop
    by_cases hlt : mat.active.p + mat.active.q < mat.m
    · simp only [hlt, if_true] at hn ⊢
      have hb : none ∉ inner_loop_all mat ifuel [] 0 := by
        intro hx
        apply hn
        exact List.mem_flatMap.mpr ⟨none, List.mem_dedup.mpr hx, by simp⟩
      have hm := inner_loop_mem hadm mat ifuel [] 0 hb
      rcases hst : inner_loop srt mat ifuel [] 0 with _ | mat1
      · rw [hst] at hm
        exact absurd hm hb
      · rw [hst] at hm
        have hn2 : none ∉ outer_loop_all ifuel fuel mat1 := fun hx =>
          hn (List.mem_flatMap.mpr ⟨_, List.mem_dedup.mpr hm, hx⟩)
        exact List.mem_flatMap.mpr ⟨_, List.mem_dedup.mpr hm, ih mat1 _ hn2⟩
    · simp [hlt]

theorem hr_transform_mem {srt : Sorter} (hadm : Admissible srt) (mat : Bmat)
    (hn : none ∉ hr_transform_all mat) : hr_transform srt mat ∈ hr_transform_all mat := by
  unfold hr_transform_all at hn ⊢
  rw [List.mem_dedup] at hn ⊢
  exact outer_loop_mem hadm mat.m mat.m _ [] hn

theorem hr_transform_all_cases {srt : Sorter} (hadm : Admissible srt) (mat : Bmat)
    (P : Option Bmat → Prop) (hnone : ¬ P none) (hall : ∀ x ∈ hr_transform_all mat, P x) :
    P (hr_transform srt mat) :=
  hall _ (hr_transform_mem hadm mat (fun hx => hnone (hall _ hx)))

set_option maxRecDepth 100000 in
theorem dense3_outcomes : ∀ x ∈ hr_transform_all dense3,
    x.map (fun r => (r.active.p, r.active.q)) = some (3, 0) := by decide!

theorem dense3_result {srt : Sorter} (hadm : Admissible srt) :
    ∃ r, hr_transform srt dense3 = some r ∧ r.active.p = 3 ∧ r.active.q = 0 := by
  have := hr_transform_all_cases hadm dense3
    (fun x => x.map (fun r => (r.active.p, r.active.q)) = some (3, 0)) (by simp) dense3_outcomes
  rcases hr : hr_transform srt dense3 with _ | r
  · rw [hr] at this
    simp at this
  · rw [hr] at this
    simp only [Option.map_some', Option.some.injEq, Prod.mk.injEq] at this
    exact ⟨r, rfl, this.1, this.2⟩

end Rareman

/-! ## The pass that commits: block size and singleton rows -/

namespace Rareman

end Rareman

/-! ## The inner loop, with the arguments of its block commit -/

namespace Rareman

end Rareman

/-! ## The block commit in closed form, and what later commits leave alone -/

namespace Rareman

section
variable {mat : Bmat} {rows diag spk : List Nat}

end

end Rareman

/-! ## One outer iteration and the rest of the run -/

namespace Rareman

end Rareman

/-! ## Singleton rows of one outer iteration -/

namespace Rareman

end Rareman

/-! ## The bytes `matpbm_writeToStream` writes -/

namespace Rareman

theorem or_mask_testBit (block p t : Nat) (x : Bool) (ht : t ≤ 7) :
    (if x = true then block ||| (128 >>> p) else block).testBit (7 - t)
      = (block.testBit (7 - t) || (x && decide (t = p))) := by
  cases x with
  | false => simp
  | true =>
    have e : (128 : Nat) = 2 ^ 7 := rfl
    have hiff : (7 = p + (7 - t)) ↔ (t = p) := by omega
    simp only [if_true, Nat.testBit_or, Nat.testBit_shiftRight, Bool.true_and, e,
      Nat.testBit_two_pow, hiff]

theorem outbit_cons (b : Nat) (out : List Nat) (t : Nat) :
    outbit (b :: out) t = if t < 8 then b.testBit (7 - t) else outbit out (t - 8) := by
  unfold outbit
  by_cases ht : t < 8
  · rw [if_pos ht]
    have h1 : t / 8 = 0 := by omega
    have h2 : t % 8 = t := by omega
    rw [h1, h2]
    rfl
  · rw [if_neg ht]
    have h1 : t / 8 = (t - 8) / 8 + 1 := by omega
    have h2 : (t - 8) % 8 = t % 8 := by omega
    rw [h1, h2]
    rfl

theorem flush_block_cons (b : Nat) (r : List Nat × Nat × Nat) :
    flush_block (b :: r.1, r.2.1, r.2.2) = b :: flush_block r := by
  unfold flush_block
  by_cases h : r.2.2 ≠ 0
  · simp only [if_pos h, List.cons_append]
  · simp only [if_neg h]

theorem write_cols_spec {mat : Bmat} (h : WellFormed mat) (hk : mat.colind.length < 2 ^ 31)
    (ii : Nat) (hii : ii < mat.m) :
    ∀ (n jj block blockPos : Nat), jj + n = mat.m → blockPos = jj % 8 →
      (∀ t, blockPos ≤ t → t ≤ 7 → block.testBit (7 - t) = false) →
      ∃ r, write_cols mat (mat.rowptr.getD (mat.roworder.getD ii 0) 0)
          (mat.rowlen.getD (mat.roworder.getD ii 0) 0) jj n block blockPos = some r ∧
        (flush_block r).length + jj / 8 = (mat.m + 7) / 8 ∧
        ∀ t, t < 8 * (flush_block r).length →
          outbit (flush_block r) t
            = if t < blockPos then block.testBit (7 - t)
              else (decide (8 * (jj / 8) + t < mat.m) && NZ mat ii (8 * (jj / 8) + t)) := by
  intro n
  induction n with
  | zero =>
    intro jj block blockPos hjn hbp hinv
    refine ⟨([], block, blockPos), rfl, ?_, ?_⟩
    · unfold flush_block
      simp only []
      split
      · simp only [List.nil_append, List.length_singleton]
        omega
      · simp only [List.length_nil]
        omega
    · intro t ht
      unfold flush_block at ht ⊢
      simp only [] at ht ⊢
      by_cases h0 : blockPos ≠ 0
      · rw [if_pos h0] at ht ⊢
        simp only [List.nil_append, List.length_singleton] at ht ⊢
        rw [outbit_cons, if_pos (by omega)]
        by_cases htb : t < blockPos
        · rw [if_pos htb]
        · rw [if_neg htb, hinv t (by omega) (by omega)]
          have : ¬ (8 * (jj / 8) + t < mat.m) := by omega
          simp [this]
      · rw [if_neg h0] at ht
        simp at ht
  | succ n ih =>
    intro jj block blockPos hjn hbp hinv
    have hjj : jj < mat.m := by omega
    obtain ⟨hro, hi1⟩ := h.row_get hii
    have hsl := h.slice_le _ hi1
    have hscan : isNZ_scan mat.colind (mat.colorder.getD jj 0)
        (mat.rowptr.getD (mat.roworder.getD ii 0) 0)
        (scan_count (mat.rowptr.getD (mat.roworder.getD ii 0) 0)
          (mat.rowlen.getD (mat.roworder.getD ii 0) 0))
        = some (NZ mat ii jj) := by
      rw [scan_count_eq _ _ (by omega)]
      exact isNZ_scan_eq _ _ _ _ hsl (by omega)
    unfold write_cols
    simp only [(h.col_get hjj).1, hscan, Option.bind_eq_bind, Option.some_bind, Option.pure_def]
    have hb1 : ∀ t, t ≤ 7 →
        (if NZ mat ii jj = true then block ||| (128 >>> blockPos) else block).testBit (7 - t)
          = (block.testBit (7 - t) || (NZ mat ii jj && decide (t = blockPos))) :=
      fun t ht => or_mask_testBit block blockPos t (NZ mat ii jj) ht
    have hjdecomp : 8 * (jj / 8) + blockPos = jj := by omega
    by_cases hfull : blockPos + 1 = 8
    · rw [if_pos hfull]
      obtain ⟨r1, e1, hl1, hb⟩ := ih (jj + 1) 0 0 (by omega) (by omega)
        (fun t _ _ => Nat.zero_testBit _)
      rw [e1]
      refine ⟨_, rfl, ?_, ?_⟩
      · rw [flush_block_cons, List.length_cons]
        omega
      · intro t ht
        rw [flush_block_cons, List.length_cons] at ht
        rw [flush_block_cons, outbit_cons]
        by_cases ht8 : t < 8
        · rw [if_pos ht8, hb1 t (by omega)]
          by_cases htb : t < blockPos
          · rw [if_pos htb]
            have : ¬ t = blockPos := by omega
            simp [this]
          · rw [if_neg htb]
            have e : t = blockPos := by omega
            rw [hinv t (by omega) (by omega), e, hjdecomp]
            simp [hjj]
        · rw [if_neg ht8, hb (t - 8) (by omega), if_neg (by omega), if_neg (by omega)]
          have e : 8 * ((jj + 1) / 8) + (t - 8) = 8 * (jj / 8) + t := by omega
          rw [e]
    · rw [if_neg hfull]
      obtain ⟨r1, e1, hl1, hb⟩ := ih (jj + 1)
        (if NZ mat ii jj = true then block ||| (128 >>> blockPos) else block) (blockPos + 1)
        (by omega) (by omega)
        (by
          intro t ht1 ht2
          rw [hb1 t ht2, hinv t (by omega) ht2]
          have : ¬ t = blockPos := by omega
          simp [this])
      refine ⟨r1, e1, by omega, ?_⟩
      intro t ht
      rw [hb t ht]
      have ediv : (jj + 1) / 8 = jj / 8 := by omega
      rw [ediv]
      by_cases htb : t < blockPos
      · rw [if_pos htb, if_pos (by omega), hb1 t (by omega)]
        have : ¬ t = blockPos := by omega
        simp [this]
      · rw [if_neg htb]
        by_cases hte : t = blockPos
        · rw [if_pos (by omega), hb1 t (by omega), hinv t (by omega) (by omega), hte, hjdecomp]
          simp [hjj]
        · rw [if_neg (by omega)]

theorem write_row_spec {mat : Bmat} (h : WellFormed mat) (hk : mat.colind.length < 2 ^ 31)
    (ii : Nat) (hii : ii < mat.m) :
    ∃ row, write_row mat ii = some row ∧ row.length = (mat.m + 7) / 8 ∧
      ∀ t, t < 8 * ((mat.m + 7) / 8) →
        outbit row t = (decide (t < mat.m) && NZ mat ii t) := by
  obtain ⟨hro, hi1⟩ := h.row_get hii
  obtain ⟨r, e, hl, hb⟩ := write_cols_spec h hk ii hii mat.m 0 0 0 (by omega) (by omega)
    (fun t _ _ => Nat.zero_testBit _)
  refine ⟨flush_block r, ?_, by omega, ?_⟩
  · unfold write_row
    simp only [hro, getElem?_eq_some_getD mat.rowptr _ (by rw [h.rowptr_len]; exact hi1),
      getElem?_eq_some_getD mat.rowlen _ (by rw [h.rowlen_len]; exact hi1), e,
      Option.bind_eq_bind, Option.some_bind, Option.pure_def]
  · intro t ht
    have hl2 : (flush_block r).length = (mat.m + 7) / 8 := by omega
    rw [hb t (by rw [hl2]; exact ht), if_neg (by omega)]
    simp

end Rareman

/-! ## What `matpbm_loadFromStream` stores for the bytes of a row -/

namespace Rareman

theorem and_two_pow_ne_zero (c i : Nat) : (c &&& 2 ^ i ≠ 0) ↔ c.testBit i = true := by
  constructor
  · intro hne
    obtain ⟨j, hj⟩ := Nat.ne_zero_implies_bit_true hne
    rw [Nat.testBit_and, Nat.testBit_two_pow] at hj
    simp only [Bool.and_eq_true, decide_eq_true_eq] at hj
    rw [hj.2]
    exact hj.1
  · intro hb hz
    have : (c &&& 2 ^ i).testBit i = true := by
      rw [Nat.testBit_and, Nat.testBit_two_pow, hb]
      simp
    rw [hz] at this
    simp at this

theorem mask_eq (q : Nat) (hq : q ≤ 7) : 128 >>> q = 2 ^ (7 - q) := by
  interval_cases q <;> rfl

theorem stores_append (st : List Nat × Nat × Nat) (a b : List Nat) :
    stores st (a ++ b) = stores (stores st a) b := by
  unfold stores
  rw [List.foldl_append]

theorem stores_nil (st : List Nat × Nat × Nat) : stores st [] = st := rfl

theorem load_block_eq (c n : Nat) :
    ∀ (k j q : Nat) (st : List Nat × Nat × Nat), q + k ≤ 8 →
      load_block c n j k (128 >>> q) st = stores st (block_cols c n j k q) := by
  intro k
  induction k with
  | zero =>
    intro j q st _
    rfl
  | succ k ih =>
    intro j q st hq
    unfold load_block block_cols
    by_cases hj : j < n
    · rw [if_pos hj, if_pos hj]
      have hm : (128 >>> q) >>> 1 = 128 >>> (q + 1) := by
        rw [← Nat.shiftRight_add]
      rw [hm, ih (j + 1) (q + 1) _ (by omega), stores_append]
      congr 1
      rw [mask_eq q (by omega)]
      by_cases hb : c.testBit (7 - q) = true
      · rw [if_pos ((and_two_pow_ne_zero c (7 - q)).mpr hb), if_pos hb]
        rfl
      · rw [if_neg (fun hx => hb ((and_two_pow_ne_zero c (7 - q)).mp hx)), if_neg hb]
        rfl
    · rw [if_neg hj, if_neg hj]
      rfl

theorem load_row_eq (n : Nat) :
    ∀ (bytes : List Nat) (bj : Nat) (tail : List Nat) (st : List Nat × Nat × Nat),
      load_row n bj bytes.length (bytes ++ tail) st
        = some (tail, stores st (row_cols_from n bj bytes)) := by
  intro bytes
  induction bytes with
  | nil =>
    intro bj tail st
    simp [load_row, row_cols_from, stores_nil]
  | cons c s ih =>
    intro bj tail st
    simp only [List.length_cons, List.cons_append, load_row, row_cols_from]
    have hlb := load_block_eq c n 8 (bj * 8) 0 st (by omega)
    rw [show (128 >>> 0 : Nat) = 128 from rfl] at hlb
    rw [hlb, stores_append]
    exact ih (bj + 1) tail _

theorem load_row_none (n : Nat) :
    ∀ (k bj : Nat) (s : List Nat) (st : List Nat × Nat × Nat), s.length < k →
      load_row n bj k s st = none := by
  intro k
  induction k with
  | zero =>
    intro bj s st hs
    omega
  | succ k ih =>
    intro bj s st hs
    cases s with
    | nil => rfl
    | cons c t =>
      simp only [load_row]
      exact ih _ _ _ (by simpa using hs)

theorem block_cols_eq (c n : Nat) :
    ∀ (k j q : Nat), block_cols c n j k q
      = (List.range' j k).filter (fun x => decide (x < n) && c.testBit (7 - (q + (x - j)))) := by
  intro k
  induction k with
  | zero =>
    intro j q
    rfl
  | succ k ih =>
    intro j q
    unfold block_cols
    rw [List.range'_succ]
    by_cases hj : j < n
    · rw [if_pos hj, ih]
      have hc : (List.range' (j + 1) k).filter
            (fun x => decide (x < n) && c.testBit (7 - (q + 1 + (x - (j + 1)))))
          = (List.range' (j + 1) k).filter
            (fun x => decide (x < n) && c.testBit (7 - (q + (x - j)))) := by
        apply List.filter_congr
        intro x hx
        have := (List.mem_range'_1.mp hx).1
        have e : q + 1 + (x - (j + 1)) = q + (x - j) := by omega
        rw [e]
      rw [hc]
      by_cases hb : c.testBit (7 - q) = true
      · rw [if_pos hb, List.filter_cons_of_pos (by simp [hj, hb])]
        rfl
      · rw [if_neg hb, List.filter_cons_of_neg (by simp [hb])]
        rfl
    · rw [if_neg hj]
      symm
      rw [List.filter_eq_nil_iff]
      intro x hx
      have : j ≤ x := by
        rcases List.mem_cons.mp hx with h | h
        · omega
        · exact Nat.le_of_lt (Nat.lt_of_succ_le (List.mem_range'_1.mp h).1)
      simp only [Bool.and_eq_true, decide_eq_true_eq, not_and]
      intro hxn
      omega

theorem row_cols_from_eq (n : Nat) :
    ∀ (bytes : List Nat) (bj : Nat), row_cols_from n bj bytes
      = (List.range' (bj * 8) (8 * bytes.length)).filter
          (fun x => decide (x < n) && outbit bytes (x - bj * 8)) := by
  intro bytes
  induction bytes with
  | nil =>
    intro bj
    rfl
  | cons c s ih =>
    intro bj
    unfold row_cols_from
    have hsplit : List.range' (bj * 8) (8 * (c :: s).length)
        = List.range' (bj * 8) 8 ++ List.range' ((bj + 1) * 8) (8 * s.length) := by
      have e1 : 8 * (c :: s).length = 8 * s.length + 8 := by
        rw [List.length_cons]
        omega
      have e2 : (bj + 1) * 8 = bj * 8 + 8 := by omega
      rw [e1, e2, List.range'_append_1]
    rw [hsplit, List.filter_append, block_cols_eq, ih]
    congr 1
    · apply List.filter_congr
      intro x hx
      have := List.mem_range'_1.mp hx
      rw [outbit_cons, if_pos (by omega)]
      simp
    · apply List.filter_congr
      intro x hx
      have := List.mem_range'_1.mp hx
      rw [outbit_cons, if_neg (by omega)]
      have e : x - bj * 8 - 8 = x - (bj + 1) * 8 := by omega
      rw [e]

theorem row_cols_of_bits (n : Nat) (bytes : List Nat) (f : Nat → Bool)
    (hlen : n ≤ 8 * bytes.length)
    (hb : ∀ t, t < 8 * bytes.length → outbit bytes t = (decide (t < n) && f t)) :
    row_cols_from n 0 bytes = (List.range n).filter f := by
  rw [row_cols_from_eq]
  have hsplit : List.range' (0 * 8) (8 * bytes.length)
      = List.range n ++ List.range' n (8 * bytes.length - n) := by
    have e1 : 8 * bytes.length = 8 * bytes.length - n + n := by omega
    rw [List.range_eq_range', Nat.zero_mul]
    have := List.range'_append_1 0 n (8 * bytes.length - n)
    rw [Nat.zero_add] at this
    rw [this, ← e1]
  rw [hsplit, List.filter_append]
  have h2 : (List.range' n (8 * bytes.length - n)).filter
      (fun x => decide (x < n) && outbit bytes (x - 0 * 8)) = [] := by
    rw [List.filter_eq_nil_iff]
    intro x hx
    have := (List.mem_range'_1.mp hx).1
    simp only [Bool.and_eq_true, decide_eq_true_eq, not_and]
    intro hxn
    omega
  rw [h2, List.append_nil]
  apply List.filter_congr
  intro x hx
  have hxn := List.mem_range.mp hx
  rw [Nat.zero_mul, Nat.sub_zero, hb x (by omega)]
  simp [hxn]

theorem stores_fresh (js : List Nat) :
    ∀ (A : List Nat) (len : Nat), A.length + js.length ≤ 2 ^ 32 →
      stores (A, A.length % 2 ^ 32, len) js
        = (A ++ js, (A.length + js.length) % 2 ^ 32, len + js.length) := by
  induction js with
  | nil =>
    intro A len _
    simp [stores]
  | cons j t ih =>
    intro A len hl
    simp only [List.length_cons] at hl
    have hA : A.length % 2 ^ 32 = A.length := Nat.mod_eq_of_lt (by omega)
    have hst : store A A.length j = A ++ [j] := by
      unfold store
      rw [if_neg (Nat.lt_irrefl _)]
    have hstep : stores (A, A.length % 2 ^ 32, len) (j :: t)
        = stores (A ++ [j], (A ++ [j]).length % 2 ^ 32, len + 1) t := by
      unfold stores
      simp only [List.foldl_cons, hA, hst, List.length_append, List.length_singleton]
    rw [hstep, ih (A ++ [j]) (len + 1) (by simp; omega)]
    simp only [List.append_assoc, List.singleton_append, List.length_append, List.length_singleton,
      List.length_cons]
    refine Prod.ext rfl (Prod.ext ?_ ?_)
    · show (A.length + 1 + t.length) % 2 ^ 32 = (A.length + (t.length + 1)) % 2 ^ 32
      congr 1
      omega
    · show len + 1 + t.length = len + (t.length + 1)
      omega

end Rareman

/-! ## The header: what is written is read back -/

namespace Rareman

theorem fgets_aux_line (l : List Nat) :
    ∀ (k : Nat) (rest : List Nat), 10 ∉ l → l.length < k →
      fgets_aux k (l ++ 10 :: rest) = (l ++ [10], rest) := by
  induction l with
  | nil =>
    intro k rest _ hk
    cases k with
    | zero => omega
    | succ k => simp [fgets_aux]
  | cons a t ih =>
    intro k rest hl hk
    cases k with
    | zero => simp at hk
    | succ k =>
      have ha : a ≠ 10 := fun e => hl (by simp [e])
      have ht : 10 ∉ t := fun e => hl (by simp [e])
      change fgets_aux (k + 1) (a :: (t ++ 10 :: rest)) = (a :: (t ++ [10]), rest)
      unfold fgets_aux
      rw [if_neg ha, ih k rest ht (by simpa using hk)]

theorem fgets_line (l rest : List Nat) (hl : 10 ∉ l) (hk : l.length < 4095) :
    fgets MAX_LINE (l ++ 10 :: rest) = some (l ++ [10], rest) := by
  unfold fgets
  rw [if_neg (by simp)]
  show some (fgets_aux 4095 (l ++ 10 :: rest)) = _
  rw [fgets_aux_line l 4095 rest hl hk]

theorem fgets_aux_length :
    ∀ (k : Nat) (s : List Nat), (fgets_aux k s).2.length ≤ s.length ∧
      (0 < k → s ≠ [] → (fgets_aux k s).2.length < s.length) := by
  intro k
  induction k with
  | zero =>
    intro s
    exact ⟨Nat.le_refl _, fun h => absurd h (Nat.lt_irrefl 0)⟩
  | succ k ih =>
    intro s
    cases s with
    | nil => exact ⟨Nat.le_refl _, fun _ h => absurd rfl h⟩
    | cons c t =>
      unfold fgets_aux
      by_cases hc : c = 10
      · rw [if_pos hc]
        simp
      · rw [if_neg hc]
        have := (ih t).1
        simp only [List.length_cons]
        exact ⟨by omega, fun _ _ => by omega⟩

theorem fgets_rest_lt (s line rest : List Nat) (h : fgets MAX_LINE s = some (line, rest)) :
    rest.length < s.length := by
  unfold fgets at h
  by_cases hs : s = []
  · rw [if_pos hs] at h
    exact absurd h (by simp)
  · rw [if_neg hs] at h
    have e : fgets_aux (MAX_LINE - 1) s = (line, rest) := Option.some.inj h
    have := (fgets_aux_length (MAX_LINE - 1) s).2 (by decide) hs
    rw [e] at this
    exact this

theorem read_header_lines :
    ∀ (fuel : Nat) (hm : Bool) (s : List Nat), s.length < fuel →
      read_header fuel hm s =
        match dimension_line hm (stream_lines fuel s) with
        | none => some none
        | some lr =>
          match sscanf_dims (cstr lr.1) with
          | none => none
          | some d => some (some (d, lr.2)) := by
  intro fuel
  induction fuel with
  | zero =>
    intro hm s hs
    omega
  | succ fuel ih =>
    intro hm s hs
    unfold read_header stream_lines
    rcases hf : fgets MAX_LINE s with _ | ⟨line, rest⟩
    · simp only [dimension_line]
    · have hlt := fgets_rest_lt s line rest hf
      simp only [dimension_line]
      by_cases h1 : line.head? = some 35
      · rw [if_pos h1, if_pos h1]
        exact ih hm rest (by omega)
      · rw [if_neg h1, if_neg h1]
        by_cases h2 : cstr line = [80, 52, 10]
        · rw [if_pos h2, if_pos h2]
          exact ih true rest (by omega)
        · rw [if_neg h2, if_neg h2]
          cases hm with
          | true => rfl
          | false =>
            simp only [Bool.false_eq_true, if_false]
            exact ih false rest (by omega)

theorem print_dec_digit (m : Nat) : ∀ c ∈ print_dec m, 48 ≤ c ∧ c ≤ 57 := by
  intro c hc
  unfold print_dec at hc
  by_cases h0 : m = 0
  · rw [if_pos h0] at hc
    simp at hc
    omega
  · rw [if_neg h0] at hc
    obtain ⟨d, hd, rfl⟩ := List.mem_map.mp hc
    have := Nat.digits_lt_base (by decide : 1 < 10) (List.mem_reverse.mp hd)
    omega

theorem print_dec_ne_nil (m : Nat) : print_dec m ≠ [] := by
  unfold print_dec
  by_cases h0 : m = 0
  · rw [if_pos h0]
    simp
  · rw [if_neg h0]
    intro h
    rw [List.map_eq_nil_iff, List.reverse_eq_nil_iff] at h
    exact (Nat.digits_ne_nil_iff_ne_zero.mpr h0) h

theorem digits_value_rev (L : List Nat) :
    digits_value (L.reverse.map (fun d => d + 48)) = Nat.ofDigits 10 L := by
  induction L with
  | nil => rfl
  | cons d t ih =>
    unfold digits_value at ih ⊢
    rw [List.reverse_cons, List.map_append, List.foldl_append, ih, Nat.ofDigits_cons]
    simp only [List.map_cons, List.map_nil, List.foldl_cons, List.foldl_nil, Nat.add_sub_cancel]
    omega

theorem digits_value_print (m : Nat) : digits_value (print_dec m) = m := by
  unfold print_dec
  by_cases h0 : m = 0
  · rw [if_pos h0, h0]
    rfl
  · rw [if_neg h0, digits_value_rev, Nat.ofDigits_digits]

theorem print_dec_length (m : Nat) (hm : m < 2 ^ 31) : (print_dec m).length ≤ 10 := by
  unfold print_dec
  by_cases h0 : m = 0
  · rw [if_pos h0]
    simp
  · rw [if_neg h0, List.length_map, List.length_reverse]
    have h1 := Nat.le_digits_len_le 10 m 2147483647 (by omega)
    have h2 : (Nat.digits 10 2147483647).length = 10 := by norm_num
    omega

theorem scan_sign_digit (d : Nat) (t : List Nat) (hd : 48 ≤ d ∧ d ≤ 57) :
    scan_sign (d :: t) = (false, d :: t) := by
  unfold scan_sign
  split
  · rename_i h
    simp only [List.cons.injEq] at h
    omega
  · rename_i h
    simp only [List.cons.injEq] at h
    omega
  · rfl

theorem scan_int_dec (m x : Nat) (rest : List Nat) (hm : m < 2 ^ 31)
    (hx : is_digit x = false) :
    scan_int (print_dec m ++ x :: rest) = some ((m : Int), x :: rest) := by
  have hdig := print_dec_digit m
  obtain ⟨d, t, hdt⟩ : ∃ d t, print_dec m = d :: t := by
    cases hp : print_dec m with
    | nil => exact absurd hp (print_dec_ne_nil m)
    | cons d t => exact ⟨d, t, rfl⟩
  have hd := hdig d (by rw [hdt]; simp)
  have hall : ∀ a ∈ print_dec m, is_digit a = true := by
    intro a ha
    have := hdig a ha
    unfold is_digit
    simp only [decide_eq_true_eq]
    omega
  have h1 : (print_dec m ++ x :: rest).dropWhile is_space = print_dec m ++ x :: rest := by
    rw [hdt, List.cons_append, List.dropWhile_cons_of_neg]
    unfold is_space
    simp only [decide_eq_true_eq]
    omega
  have h2 : scan_sign (print_dec m ++ x :: rest) = (false, print_dec m ++ x :: rest) := by
    rw [hdt, List.cons_append]
    exact scan_sign_digit d _ hd
  have h3 : (print_dec m ++ x :: rest).takeWhile is_digit = print_dec m := by
    rw [List.takeWhile_append_of_pos hall, List.takeWhile_cons_of_neg (by simp [hx]),
      List.append_nil]
  have h4 : (print_dec m ++ x :: rest).dropWhile is_digit = x :: rest := by
    rw [List.dropWhile_append_of_pos hall, List.dropWhile_cons_of_neg (by simp [hx])]
  unfold scan_int
  simp only [h1, h2, h3, h4, digits_value_print, Bool.false_eq_true, if_false]
  rw [if_neg (print_dec_ne_nil m), if_neg (by omega), if_neg (by omega)]

theorem scan_int_space (s : List Nat) : scan_int (32 :: s) = scan_int s := by
  have h : (32 :: s).dropWhile is_space = s.dropWhile is_space := by
    rw [List.dropWhile_cons_of_pos]
    decide
  unfold scan_int
  rw [h]

theorem sscanf_dims_written (m : Nat) (hm : m < 2 ^ 31) :
    sscanf_dims (cstr ((print_dec m ++ 32 :: print_dec m) ++ [10]))
      = some ((m : Int), (m : Int)) := by
  have hdig := print_dec_digit m
  have hc : cstr ((print_dec m ++ 32 :: print_dec m) ++ [10])
      = print_dec m ++ 32 :: (print_dec m ++ 10 :: []) := by
    unfold cstr
    rw [List.takeWhile_eq_self_iff.mpr]
    · simp
    · intro a ha
      simp only [List.mem_append, List.mem_cons, List.mem_singleton, List.not_mem_nil,
        or_false] at ha
      simp only [ne_eq, decide_not, Bool.not_eq_eq_eq_not, Bool.not_true,
        decide_eq_false_iff_not]
      rcases ha with (ha | ha | ha) | ha
      · have := hdig a ha
        omega
      · omega
      · have := hdig a ha
        omega
      · omega
  unfold sscanf_dims
  rw [hc, scan_int_dec m 32 _ hm (by decide)]
  simp only []
  rw [scan_int_space, scan_int_dec m 10 [] hm (by decide)]

theorem write_header_split (m : Nat) (body : List Nat) :
    write_header m ++ body
      = [80, 52] ++ 10 :: ((35 :: 32 :: PBM_HEADER_COMMENT) ++ 10 ::
          ((print_dec m ++ 32 :: print_dec m) ++ 10 :: body)) := by
  unfold write_header
  simp

theorem read_header_written (m : Nat) (hm : m < 2 ^ 31) (body : List Nat) (fuel : Nat) :
    read_header (fuel + 3) false (write_header m ++ body)
      = some (some (((m : Int), (m : Int)), body)) := by
  have hdig := print_dec_digit m
  obtain ⟨d, t, hdt⟩ : ∃ d t, print_dec m = d :: t := by
    cases hp : print_dec m with
    | nil => exact absurd hp (print_dec_ne_nil m)
    | cons d t => exact ⟨d, t, rfl⟩
  have hd := hdig d (by rw [hdt]; simp)
  have hlen := print_dec_length m hm
  rw [write_header_split]
  unfold read_header
  rw [fgets_line [80, 52] _ (by decide) (by decide)]
  simp only []
  rw [if_neg (by decide), if_pos (by decide)]
  unfold read_header
  rw [fgets_line (35 :: 32 :: PBM_HEADER_COMMENT) _ (by decide) (by decide)]
  simp only []
  rw [if_pos (by rfl)]
  unfold read_header
  rw [fgets_line (print_dec m ++ 32 :: print_dec m) _
    (by
      intro hx
      simp only [List.mem_append, List.mem_cons] at hx
      rcases hx with hx | hx | hx
      · have := hdig 10 hx
        omega
      · omega
      · have := hdig 10 hx
        omega)
    (by
      rw [List.length_append, List.length_cons]
      omega)]
  simp only []
  have hhead : ((print_dec m ++ 32 :: print_dec m) ++ [10]).head? = some d := by
    rw [hdt]
    rfl
  rw [hhead, if_neg (by simp only [Option.some.injEq]; omega)]
  have hne : cstr ((print_dec m ++ 32 :: print_dec m) ++ [10]) ≠ [80, 52, 10] := by
    intro hx
    have h1 := sscanf_dims_written m hm
    have h2 : sscanf_dims [80, 52, 10] = none := by decide
    rw [hx, h2] at h1
    exact absurd h1 (by simp)
  rw [if_neg hne]
  simp only [if_true]
  rw [sscanf_dims_written m hm]

end Rareman

/-! ## Loading the bytes that were written -/

namespace Rareman

theorem blocks_eq (m : Nat) : m / 8 + (if m % 8 ≠ 0 then 1 else 0) = (m + 7) / 8 := by
  split <;> omega

theorem load_rows_none (n b : Nat) :
    ∀ (k : Nat) (s colind : List Nat) (pos : Nat), s.length < b * k →
      load_rows n b k s colind pos = none := by
  intro k
  induction k with
  | zero =>
    intro s colind pos hs
    simp at hs
  | succ k ih =>
    intro s colind pos hs
    unfold load_rows
    by_cases hb : s.length < b
    · rw [load_row_none n b 0 s _ hb]
    · have hsplit : s = s.take b ++ s.drop b := (List.take_append_drop b s).symm
      have hlen : (s.take b).length = b := by
        rw [List.length_take]
        omega
      have := load_row_eq n (s.take b) 0 (s.drop b) (colind, pos, 0)
      rw [hlen, ← hsplit] at this
      rw [this]
      simp only []
      rw [ih (s.drop b) _ _ (by
        rw [List.length_drop]
        have : b * (k + 1) = b * k + b := by ring
        omega)]

theorem load_rows_some (n b : Nat) :
    ∀ (k : Nat) (s colind : List Nat) (pos : Nat), b * k ≤ s.length →
      ∃ r, load_rows n b k s colind pos = some r ∧ r.1.length = k ∧ r.2.1.length = k := by
  intro k
  induction k with
  | zero =>
    intro s colind pos _
    exact ⟨_, rfl, rfl, rfl⟩
  | succ k ih =>
    intro s colind pos hs
    have hmul : b * (k + 1) = b * k + b := by ring
    have hsplit : s = s.take b ++ s.drop b := (List.take_append_drop b s).symm
    have hlen : (s.take b).length = b := by
      rw [List.length_take]
      omega
    have := load_row_eq n (s.take b) 0 (s.drop b) (colind, pos, 0)
    rw [hlen, ← hsplit] at this
    obtain ⟨r, hr, h1, h2⟩ := ih (s.drop b)
      (stores (colind, pos, 0) (row_cols_from n 0 (s.take b))).1
      (stores (colind, pos, 0) (row_cols_from n 0 (s.take b))).2.1
      (by rw [List.length_drop]; omega)
    unfold load_rows
    rw [this]
    simp only []
    rw [hr]
    exact ⟨_, rfl, by simp [h1], by simp [h2]⟩

end Rareman

/-! ## The bytes of the body by position; the loader on a whole stream -/

namespace Rareman

theorem write_rows_index {mat : Bmat} (h : WellFormed mat) (hk : mat.colind.length < 2 ^ 31) :
    ∀ (n ii : Nat), ii + n = mat.m →
      ∃ body, write_rows mat ii n = some body ∧ body.length = n * ((mat.m + 7) / 8) ∧
        ∀ r k, r < n → k < (mat.m + 7) / 8 →
          ∃ row, write_row mat (ii + r) = some row ∧
            body.getD (r * ((mat.m + 7) / 8) + k) 0 = row.getD k 0 := by
  intro n
  induction n with
  | zero =>
    intro ii _
    exact ⟨[], rfl, by simp, fun r k hr _ => absurd hr (Nat.not_lt_zero r)⟩
  | succ n ih =>
    intro ii hii
    obtain ⟨row, hrow, hrl, _⟩ := write_row_spec h hk ii (by omega)
    obtain ⟨body, hw, hbl, hidx⟩ := ih (ii + 1) (by omega)
    refine ⟨row ++ body, ?_, ?_, ?_⟩
    · unfold write_rows
      simp only [hrow, hw, Option.bind_eq_bind, Option.some_bind, Option.pure_def]
    · rw [List.length_append, hrl, hbl]
      ring
    · intro r k hr hk
      cases r with
      | zero =>
        refine ⟨row, hrow, ?_⟩
        rw [Nat.zero_mul, Nat.zero_add, List.getD_append _ _ _ _ (by omega)]
      | succ r =>
        obtain ⟨row1, hr1, hg⟩ := hidx r k (by omega) hk
        have e : ii + 1 + r = ii + (r + 1) := by omega
        rw [e] at hr1
        refine ⟨row1, hr1, ?_⟩
        have e2 : (r + 1) * ((mat.m + 7) / 8) + k
            = row.length + (r * ((mat.m + 7) / 8) + k) := by
          rw [hrl]
          ring
        rw [e2, List.getD_append_right _ _ _ _ (by omega), Nat.add_sub_cancel_left]
        exact hg

theorem write_stream_spec {mat : Bmat} (h : WellFormed mat) (hk : mat.colind.length < 2 ^ 31) :
    ∃ body, matpbm_writeToStream mat = some (write_header mat.m ++ body) ∧
      write_rows mat 0 mat.m = some body ∧
      body.length = mat.m * ((mat.m + 7) / 8) ∧
      ∀ ii jj, ii < mat.m → jj < 8 * ((mat.m + 7) / 8) →
        (body.getD (ii * ((mat.m + 7) / 8) + jj / 8) 0).testBit (7 - jj % 8)
          = (decide (jj < mat.m) && NZ mat ii jj) := by
  obtain ⟨body, hw, hbl, hidx⟩ := write_rows_index h hk mat.m 0 (by omega)
  refine ⟨body, ?_, hw, hbl, ?_⟩
  · unfold matpbm_writeToStream
    simp only [hw, Option.bind_eq_bind, Option.some_bind, Option.pure_def]
  · intro ii jj hii hjj
    obtain ⟨row, hr1, hg⟩ := hidx ii (jj / 8) hii (by omega)
    obtain ⟨row2, hr2, _, hbits⟩ := write_row_spec h hk ii hii
    rw [Nat.zero_add, hr2] at hr1
    have e : row2 = row := Option.some.inj hr1
    rw [hg, ← e]
    exact hbits jj hjj

theorem header_fuel (m : Nat) (body : List Nat) :
    ∃ k, (write_header m ++ body).length + 1 = k + 3 := by
  refine ⟨(write_header m ++ body).length - 2, ?_⟩
  have : 5 ≤ (write_header m ++ body).length := by
    unfold write_header
    simp only [List.length_append, List.length_cons, List.length_nil]
    omega
  omega

theorem load_stream_of_header (s line rest : List Nat) (m : Nat)
    (hd : dimension_line false (stream_lines (s.length + 1) s) = some (line, rest))
    (hs : sscanf_dims (cstr line) = some ((m : Int), (m : Int))) :
    matpbm_loadFromStream s =
      match load_rows m ((m + 7) / 8) m rest [] 0 with
      | none => some none
      | some r =>
        some (some { rowptr := r.1, rowlen := r.2.1, colind := r.2.2.1, m := m,
                     nz := r.2.2.2, roworder := List.range m,
                     colorder := List.range m, active := ⟨0, 0, 0⟩ }) := by
  unfold matpbm_loadFromStream
  rw [read_header_lines (s.length + 1) false s (Nat.lt_succ_self _), hd]
  simp only [hs, ne_eq, not_true_eq_false, if_false, Int.toNat_ofNat]
  rewrite [if_neg (by omega), blocks_eq]
  rfl

end Rareman

/-! ## Loading more than `2^32` nonzero cells: `pos` wraps -/

namespace Rareman

theorem stores_len (js : List Nat) :
    ∀ (A : List Nat) (pos len : Nat), stores (A, pos, len) js
      = ((stores (A, pos, 0) js).1, (stores (A, pos, 0) js).2.1, len + js.length) := by
  induction js with
  | nil =>
    intro A pos len
    rfl
  | cons j t ih =>
    intro A pos len
    have h1 : stores (A, pos, len) (j :: t)
        = stores (store A pos j, (pos + 1) % 2 ^ 32, len + 1) t := rfl
    have h2 : stores (A, pos, 0) (j :: t)
        = stores (store A pos j, (pos + 1) % 2 ^ 32, 0 + 1) t := rfl
    rw [h1, h2, ih _ _ (len + 1), ih _ _ (0 + 1)]
    simp only [List.length_cons]
    refine Prod.ext rfl (Prod.ext rfl ?_)
    show len + 1 + t.length = len + (t.length + 1)
    omega

theorem repeat_range_eq (n : Nat) :
    ∀ k, repeat_range n k = (List.range (k * n)).map (fun t => t % n) := by
  intro k
  induction k with
  | zero => simp [repeat_range]
  | succ k ih =>
    unfold repeat_range
    have e : (k + 1) * n = n + k * n := by ring
    rw [e, List.range_add, List.map_append, List.map_map, ih]
    congr 1
    · symm
      conv_rhs => rw [← List.map_id (List.range n)]
      apply List.map_congr_left
      intro a ha
      exact Nat.mod_eq_of_lt (List.mem_range.mp ha)
    · apply List.map_congr_left
      intro a _
      simp

theorem repeat_range_get (n : Nat) (k t : Nat) (ht : t < k * n) :
    (repeat_range n k)[t]? = some (t % n) := by
  rw [repeat_range_eq n, List.getElem?_map, List.getElem?_range ht]
  rfl

theorem repeat_range_length (n : Nat) (k : Nat) :
    (repeat_range n k).length = k * n := by
  rw [repeat_range_eq n, List.length_map, List.length_range]

theorem load_written_gen {mat : Bmat} (h : WellFormed mat) (hk : mat.colind.length < 2 ^ 31) :
    ∀ (k ii : Nat) (A : List Nat) (pos : Nat) (tail : List Nat), ii + k = mat.m →
      ∃ body rp rl, write_rows mat ii k = some body ∧
        load_rows mat.m ((mat.m + 7) / 8) k (body ++ tail) A pos
          = some (rp, rl, (stores (A, pos, 0) (cols_from mat ii k)).1,
              (stores (A, pos, 0) (cols_from mat ii k)).2.1) ∧
        rp.length = k ∧ rl.length = k ∧
        ∀ r, r < k → rp.getD r 0 = (stores (A, pos, 0) (cols_from mat ii r)).2.1 ∧
          rl.getD r 0 = ((List.range mat.m).filter (fun j => NZ mat (ii + r) j)).length := by
  intro k
  induction k with
  | zero =>
    intro ii A pos tail _
    refine ⟨[], [], [], rfl, rfl, rfl, rfl, fun r hr => absurd hr (Nat.not_lt_zero r)⟩
  | succ k ih =>
    intro ii A pos tail hii
    have hlt : ii < mat.m := by omega
    obtain ⟨row, hrow, hrl, hbits⟩ := write_row_spec h hk ii hlt
    have hcols : row_cols_from mat.m 0 row = (List.range mat.m).filter (fun j => NZ mat ii j) :=
      row_cols_of_bits mat.m row (fun j => NZ mat ii j) (by rw [hrl]; omega)
        (by rw [hrl]; exact hbits)
    obtain ⟨body, rp, rl, hw, hld, hrp, hrl2, hr⟩ := ih (ii + 1)
      (stores (A, pos, 0) ((List.range mat.m).filter (fun j => NZ mat ii j))).1
      (stores (A, pos, 0) ((List.range mat.m).filter (fun j => NZ mat ii j))).2.1 tail (by omega)
    have hcat : ∀ X, stores (A, pos, 0) ((List.range mat.m).filter (fun j => NZ mat ii j) ++ X)
        = ((stores ((stores (A, pos, 0) ((List.range mat.m).filter (fun j => NZ mat ii j))).1,
              (stores (A, pos, 0) ((List.range mat.m).filter (fun j => NZ mat ii j))).2.1, 0) X).1,
           (stores ((stores (A, pos, 0) ((List.range mat.m).filter (fun j => NZ mat ii j))).1,
              (stores (A, pos, 0) ((List.range mat.m).filter (fun j => NZ mat ii j))).2.1, 0) X).2.1,
           ((List.range mat.m).filter (fun j => NZ mat ii j)).length + X.length) := by
      intro X
      rw [stores_append, stores_len ((List.range mat.m).filter (fun j => NZ mat ii j)) A pos 0,
        stores_len X]
      simp only [Nat.zero_add]
    have hcf : ∀ k1, cols_from mat ii (k1 + 1)
        = (List.range mat.m).filter (fun j => NZ mat ii j) ++ cols_from mat (ii + 1) k1 :=
      fun _ => rfl
    have hS22 : (stores (A, pos, 0) ((List.range mat.m).filter (fun j => NZ mat ii j))).2.2
        = ((List.range mat.m).filter (fun j => NZ mat ii j)).length := by
      rw [stores_len]
      simp
    refine ⟨row ++ body, pos :: rp,
      ((List.range mat.m).filter (fun j => NZ mat ii j)).length :: rl, ?_, ?_, ?_, ?_, ?_⟩
    · unfold write_rows
      simp only [hrow, hw, Option.bind_eq_bind, Option.some_bind, Option.pure_def]
    · unfold load_rows
      have hlr := load_row_eq mat.m row 0 (body ++ tail) (A, pos, 0)
      rw [hrl] at hlr
      rw [List.append_assoc, hlr, hcols]
      simp only []
      rw [hld]
      simp only []
      rw [hcf k, hcat, hS22]
    · simp [hrp]
    · simp [hrl2]
    · intro r hr2
      cases r with
      | zero =>
        exact ⟨rfl, rfl⟩
      | succ r =>
        obtain ⟨h1, h2⟩ := hr r (by omega)
        simp only [List.getD_cons_succ]
        have e : ii + 1 + r = ii + (r + 1) := by omega
        rw [e] at h2
        refine ⟨?_, h2⟩
        rw [h1, hcf r, hcat]

end Rareman

/-! ## The dense matrix of size 65537 is not loaded back -/

namespace Rareman

theorem dense_shared_slice (n i : Nat) (hi : i < n) :
    sliceOf (dense_shared n) i = List.range n := by
  have h1 : (List.replicate n 0).getD i 0 = 0 :=
    getD_of_getElem? (List.getElem?_replicate_of_lt hi)
  have h2 : (List.replicate n n).getD i 0 = n :=
    getD_of_getElem? (List.getElem?_replicate_of_lt hi)
  show ((List.range n).drop ((List.replicate n 0).getD i 0)).take
    ((List.replicate n n).getD i 0) = List.range n
  rw [h1, h2, List.drop_zero]
  exact List.take_of_length_le (by rw [List.length_range])

theorem dense_shared_wf (n : Nat) (hn : n < 2 ^ 31) : WellFormed (dense_shared n) where
  m_lt := hn
  rowptr_len := List.length_replicate _ _
  rowlen_len := List.length_replicate _ _
  slice_le := by
    intro i hi
    have hi2 : i < n := hi
    have h1 : (List.replicate n 0).getD i 0 = 0 :=
      getD_of_getElem? (List.getElem?_replicate_of_lt hi2)
    have h2 : (List.replicate n n).getD i 0 = n :=
      getD_of_getElem? (List.getElem?_replicate_of_lt hi2)
    show (List.replicate n 0).getD i 0 + (List.replicate n n).getD i 0 ≤ (List.range n).length
    rw [h1, h2, List.length_range]
    omega
  col_lt := by
    intro i hi j hj
    rw [dense_shared_slice n i hi] at hj
    exact List.mem_range.mp hj
  row_perm := List.Perm.refl _
  col_perm := List.Perm.refl _

theorem dense_shared_small (n : Nat) (hn : n < 2 ^ 31) :
    (dense_shared n).colind.length < 2 ^ 31 := by
  show (List.range n).length < 2 ^ 31
  rw [List.length_range]
  exact hn

theorem dense_shared_NZ (n i j : Nat) (hi : i < n) (hj : j < n) :
    NZ (dense_shared n) i j = true := by
  have h1 : (List.range n).getD i 0 = i := getD_of_getElem? (List.getElem?_range hi)
  have h2 : (List.range n).getD j 0 = j := getD_of_getElem? (List.getElem?_range hj)
  show decide ((List.range n).getD j 0 ∈ sliceOf (dense_shared n) ((List.range n).getD i 0))
    = true
  rw [h1, h2, dense_shared_slice n i hi]
  simpa using hj

theorem dense_shared_cols (n : Nat) :
    ∀ (k ii : Nat), ii + k ≤ n → cols_from (dense_shared n) ii k = repeat_range n k := by
  intro k
  induction k with
  | zero =>
    intro ii _
    rfl
  | succ k ih =>
    intro ii hii
    show (List.range n).filter (fun j => NZ (dense_shared n) ii j)
      ++ cols_from (dense_shared n) (ii + 1) k = List.range n ++ repeat_range n k
    rw [ih (ii + 1) (by omega), List.filter_eq_self.mpr]
    intro j hj
    exact dense_shared_NZ n ii j (by omega) (List.mem_range.mp hj)

theorem ext_getD (A B : List Nat) (hl : A.length = B.length)
    (h : ∀ i, i < A.length → A.getD i 0 = B.getD i 0) : A = B := by
  apply List.ext_getElem hl
  intro i h1 h2
  have := h i h1
  rw [List.getD_eq_getElem _ _ h1, List.getD_eq_getElem _ _ h2] at this
  exact this

theorem dense_rowptr (n i : Nat) (hi : i < n) : (dense n).rowptr[i]? = some (i * n) := by
  show ((List.range n).map (fun i => i * n))[i]? = some (i * n)
  rw [List.getElem?_map, List.getElem?_range hi]
  rfl

theorem dense_rowlen (n i : Nat) (hi : i < n) : (dense n).rowlen[i]? = some n :=
  List.getElem?_replicate_of_lt hi

theorem dense_slice (n i : Nat) (hi : i < n) : sliceOf (dense n) i = List.range n := by
  show ((repeat_range n n).drop ((dense n).rowptr.getD i 0)).take ((dense n).rowlen.getD i 0)
    = List.range n
  rw [getD_of_getElem? (dense_rowptr n i hi), getD_of_getElem? (dense_rowlen n i hi)]
  have hle : i * n + n ≤ n * n := by
    have := Nat.mul_le_mul_right n (Nat.succ_le_of_lt hi)
    rw [Nat.succ_mul] at this
    exact this
  apply List.ext_getElem?
  intro t
  rw [List.getElem?_take]
  by_cases ht : t < n
  · rw [if_pos ht, List.getElem?_drop, repeat_range_get n n _ (by omega), List.getElem?_range ht,
      Nat.mul_comm i n, Nat.mul_add_mod, Nat.mod_eq_of_lt ht]
  · rw [if_neg ht, List.getElem?_eq_none (by rw [List.length_range]; omega)]

theorem dense_wf (n : Nat) (hn : n < 2 ^ 31) : WellFormed (dense n) where
  m_lt := hn
  rowptr_len := by
    show ((List.range n).map (fun i => i * n)).length = n
    rw [List.length_map, List.length_range]
  rowlen_len := List.length_replicate _ _
  slice_le := by
    intro i hi
    have hi2 : i < n := hi
    rw [getD_of_getElem? (dense_rowptr n i hi2), getD_of_getElem? (dense_rowlen n i hi2)]
    show i * n + n ≤ (repeat_range n n).length
    rw [repeat_range_length]
    have := Nat.mul_le_mul_right n (Nat.succ_le_of_lt hi2)
    rw [Nat.succ_mul] at this
    exact this
  col_lt := by
    intro i hi j hj
    rw [dense_slice n i hi] at hj
    exact List.mem_range.mp hj
  row_perm := List.Perm.refl _
  col_perm := List.Perm.refl _

/-- The loader builds `dense n` from the bytes of the all-ones picture of
size `n`, as long as the `n * n` cells fit the 32-bit position. -/
theorem dense_loaded (n : Nat) (hn : n < 2 ^ 31) (hsq : n * n < 2 ^ 32) :
    ∃ bytes, matpbm_writeToStream (dense_shared n) = some bytes ∧
      matpbm_loadFromStream bytes = some (some (dense n)) := by
  have hwf := dense_shared_wf n hn
  have hk := dense_shared_small n hn
  have hm : (dense_shared n).m = n := rfl
  obtain ⟨body, rp, rl, hw, hld, hrp, hrl, hr⟩ :=
    load_written_gen hwf hk n 0 [] 0 [] (by rw [hm]; omega)
  rw [hm, List.append_nil, dense_shared_cols n n 0 (by omega)] at hld
  have hws : matpbm_writeToStream (dense_shared n) = some (write_header n ++ body) := by
    unfold matpbm_writeToStream
    rw [hm]
    simp only [hw, Option.bind_eq_bind, Option.some_bind, Option.pure_def]
  have hst : ∀ k, k ≤ n → stores ([], 0, 0) (repeat_range n k)
      = (repeat_range n k, k * n, k * n) := by
    intro k hkn
    have hl : (repeat_range n k).length = k * n := repeat_range_length n k
    have hle : k * n ≤ n * n := Nat.mul_le_mul_right n hkn
    have h2 : stores ([], 0, 0) (repeat_range n k)
        = ([] ++ repeat_range n k, ([].length + (repeat_range n k).length) % 2 ^ 32,
            0 + (repeat_range n k).length) :=
      stores_fresh (repeat_range n k) [] 0 (by rw [hl]; simp only [List.length_nil]; omega)
    rw [h2, hl, List.nil_append, List.length_nil, Nat.zero_add,
      Nat.mod_eq_of_lt (by omega)]
  have hrp2 : rp = (List.range n).map (fun i => i * n) := by
    apply ext_getD
    · rw [hrp, List.length_map, List.length_range]
    · intro i hi
      rw [hrp] at hi
      rw [(hr i hi).1, dense_shared_cols n i 0 (by omega), hst i (by omega)]
      exact (getD_of_getElem? (dense_rowptr n i hi)).symm
  have hrl2 : rl = List.replicate n n := by
    apply ext_getD
    · rw [hrl, List.length_replicate]
    · intro i hi
      rw [hrl] at hi
      rw [(hr i hi).2, hm, List.filter_eq_self.mpr (fun j hj =>
        dense_shared_NZ n (0 + i) j (by omega) (List.mem_range.mp hj)), List.length_range]
      exact (getD_of_getElem? (dense_rowlen n i hi)).symm
  rw [hst n (Nat.le_refl n), hrp2, hrl2] at hld
  obtain ⟨k, hk2⟩ := header_fuel n body
  refine ⟨_, hws, ?_⟩
  unfold matpbm_loadFromStream
  rw [hk2, read_header_written n hn body k]
  simp only [ne_eq, not_true_eq_false, if_false, Int.toNat_ofNat]
  rw [if_neg (by omega), blocks_eq, hld]
  rfl

theorem dense_isNZ_undefined (n : Nat) (hn : n = 46342) :
    matpbm_isNZ (dense n) 46341 0 = none := by
  have e1 : (dense n).roworder[46341]? = some 46341 := List.getElem?_range (by omega)
  have e0 : (dense n).colorder[0]? = some 0 := List.getElem?_range (by omega)
  have hc : scan_count (46341 * n) n = (n - 1) + 1 := by
    rw [scan_count_eq _ _ (by omega)]
    omega
  unfold matpbm_isNZ
  simp only [e1, e0, dense_rowptr n 46341 (by omega), dense_rowlen n 46341 (by omega),
    Option.bind_eq_bind, Option.some_bind]
  rw [hc]
  unfold isNZ_scan
  rw [if_pos (by omega)]

theorem write_rows_none (mat : Bmat) (r : Nat) (hr : write_row mat r = none) :
    ∀ (k ii : Nat), ii ≤ r → r < ii + k → write_rows mat ii k = none := by
  intro k
  induction k with
  | zero =>
    intro ii h1 h2
    omega
  | succ k ih =>
    intro ii h1 h2
    unfold write_rows
    by_cases he : ii = r
    · rw [he, hr]
      rfl
    · cases hrow : write_row mat ii with
      | none => rfl
      | some row =>
        rw [ih (ii + 1) (by omega) (by omega)]
        rfl

theorem dense_write_undefined (n : Nat) (hn : n = 46342) :
    matpbm_writeToStream (dense n) = none := by
  have e1 : (dense n).roworder[46341]? = some 46341 := List.getElem?_range (by omega)
  have e0 : (dense n).colorder[0]? = some 0 := List.getElem?_range (by omega)
  have hc : scan_count (46341 * n) n = (n - 1) + 1 := by
    rw [scan_count_eq _ _ (by omega)]
    omega
  have hscan : isNZ_scan (dense n).colind 0 (46341 * n) (scan_count (46341 * n) n) = none := by
    rw [hc]
    unfold isNZ_scan
    rw [if_pos (by omega)]
  have hm : (dense n).m = (n - 1) + 1 := by
    show n = (n - 1) + 1
    omega
  have hrow : write_row (dense n) 46341 = none := by
    unfold write_row
    simp only [e1, dense_rowptr n 46341 (by omega), dense_rowlen n 46341 (by omega),
      Option.bind_eq_bind, Option.some_bind]
    rw [hm]
    unfold write_cols
    simp only [e0, hscan, Option.bind_eq_bind, Option.some_bind, Option.none_bind]
  unfold matpbm_writeToStream
  rw [write_rows_none (dense n) 46341 hrow (dense n).m 0 (by omega) (by
    show 46341 < 0 + n
    omega)]
  rfl

end Rareman

/-! ## One pass of the inner loop from a state the loop reaches -/

namespace Rareman

end Rareman

/-! ## The claims on the whole transform -/

namespace Rareman

set_option maxRecDepth 100000

/-- Claim C3 fails on the code: from the 2x2 identity orderings, `swapRows(0, 1)`
followed by `swapCols(0, 1)` leaves `roworder = [0, 0]`, which is not a
permutation of `[0, 2)`, because `matpbm_swapCols` writes to `roworder`. -/
theorem swapCols_breaks_bijectivity :
    WellFormed ident2 ∧
      ∃ r, runOps ident2 [PermOp.swapRows 0 1, PermOp.swapCols 0 1] = some r ∧
        r.roworder = [0, 0] ∧ ¬ r.roworder.Perm (List.range 2) := by
  refine ⟨ident2_wf, { ident2 with roworder := [0, 0] }, by decide, rfl, by decide⟩

/-- Claim C4: on the 4x4 lower bidiagonal matrix with identity orderings,
`hr_transform` ends with `p = 4`, `q = 0` and both orderings the identity, for
every admissible sorting routine. -/
theorem hr_transform_bidiag4 (srt : Sorter) (hadm : Admissible srt) :
    ∃ r, hr_transform srt bidiag4 = some r ∧ r.active.p = 4 ∧ r.active.q = 0 ∧
      r.roworder = [0, 1, 2, 3] ∧ r.colorder = [0, 1, 2, 3] := by
  have hall : ∀ x ∈ hr_transform_all bidiag4,
      x = some ({ bidiag4 with active := ⟨4, 0, 0⟩ }) := by decide!
  have := hr_transform_all_cases hadm bidiag4
    (fun x => x = some ({ bidiag4 with active := ⟨4, 0, 0⟩ })) (by simp) hall
  exact ⟨_, this, rfl, rfl, rfl, rfl⟩

theorem hr_transform_bidiag4_witness :
    ∃ r, hr_transform isort bidiag4 = some r ∧ r.active.p = 4 ∧ r.active.q = 0 ∧
      r.roworder = [0, 1, 2, 3] ∧ r.colorder = [0, 1, 2, 3] :=
  hr_transform_bidiag4 isort isort_admissible

/-- Claim C5, as stated, fails: on the dense 3x3 matrix the transform does not
end with `p = 0`, `q = 3`. -/
theorem hr_transform_dense3_counterexample :
    Admissible isort ∧ WellFormed dense3 ∧
      ∃ r, hr_transform isort dense3 = some r ∧ ¬ (r.active.p = 0 ∧ r.active.q = 3) := by
  obtain ⟨r, e, hp, hq⟩ := dense3_result isort_admissible
  exact ⟨isort_admissible, dense3_wf, r, e, by omega⟩

/-- Claim C5, amended: on the dense 3x3 matrix `hr_transform` ends with
`p = 3` and `q = 0`, for every admissible sorting routine: the third inner
pass reaches `min = 1` and all three rows are committed to the diagonal. -/
theorem hr_transform_dense3 (srt : Sorter) (hadm : Admissible srt) :
    ∃ r, hr_transform srt dense3 = some r ∧ r.active.p = 3 ∧ r.active.q = 0 :=
  dense3_result hadm

theorem hr_transform_dense3_witness :
    ∃ r, hr_transform isort dense3 = some r ∧ r.active.p = 3 ∧ r.active.q = 0 :=
  hr_transform_dense3 isort isort_admissible

end Rareman

/-! ## The claims on the operations of `matpbm.c` -/

namespace Rareman

theorem isNZ_congr (mat mat1 : Bmat) (htop : topology mat1 = topology mat)
    (row col row1 col1 : Nat) (h1 : mat1.roworder[row1]? = mat.roworder[row]?)
    (h2 : mat1.colorder[col1]? = mat.colorder[col]?) :
    matpbm_isNZ mat1 row1 col1 = matpbm_isNZ mat row col := by
  simp only [topology, Prod.mk.injEq] at htop
  obtain ⟨_, _, hp, hl, hc⟩ := htop
  unfold matpbm_isNZ
  rw [h1, h2, hp, hl, hc]

theorem permOp_run_some {mat : Bmat} (h : WellFormed mat) (i j : Nat) (hi : i < mat.m)
    (hj : j < mat.m) (op : PermOp)
    (hop : op ∈ [PermOp.swapRows i j, PermOp.swapCols i j, PermOp.moveRow i j,
      PermOp.moveCol i j]) :
    ∃ r, op.run mat = some r ∧ topology r = topology mat ∧ r.active = mat.active := by
  simp only [List.mem_cons, List.mem_singleton, List.not_mem_nil, or_false] at hop
  rcases hop with rfl | rfl | rfl | rfl
  · simp only [PermOp.run, matpbm_swapRows, (h.row_get hi).1, (h.row_get hj).1,
      Option.bind_eq_bind, Option.some_bind, Option.pure_def]
    exact ⟨_, rfl, rfl, rfl⟩
  · have hlen : i < mat.roworder.length := by rw [h.row_len]; exact hi
    simp only [PermOp.run, matpbm_swapCols, (h.col_get hi).1, (h.row_get hj).1,
      Option.bind_eq_bind, Option.some_bind, Option.pure_def, if_pos hlen]
    exact ⟨_, rfl, rfl, rfl⟩
  · obtain ⟨B, hB, _⟩ := arrayMove_rotation mat.roworder i j (by rw [h.row_len]; exact hi)
      (by rw [h.row_len]; exact hj)
    simp only [PermOp.run, matpbm_moveRow, hB, Option.bind_eq_bind, Option.some_bind,
      Option.pure_def]
    exact ⟨_, rfl, rfl, rfl⟩
  · obtain ⟨B, hB, _⟩ := arrayMove_rotation mat.colorder i j (by rw [h.col_len]; exact hi)
      (by rw [h.col_len]; exact hj)
    simp only [PermOp.run, matpbm_moveCol, hB, Option.bind_eq_bind, Option.some_bind,
      Option.pure_def]
    exact ⟨_, rfl, rfl, rfl⟩

/-- Where `colind` has fewer than `2^31` cells, `matpbm_isNZ(mat, row, col)` is
true exactly when the physical column `colorder[col]` occurs in the slice of
the physical row `roworder[row]`. After `matpbm_moveRow`, `matpbm_moveCol` or
`matpbm_swapRows` the answer at new logical coordinates equals the answer
before the call at the logical coordinates that held the same physical row and
column, whatever the size of `colind`. -/
theorem isNZ_below_int_max (mat : Bmat) (h : WellFormed mat) (row col : Nat)
    (hr : row < mat.m) (hc : col < mat.m) :
    (mat.colind.length < 2 ^ 31 →
      ∃ i j sl, mat.roworder[row]? = some i ∧ mat.colorder[col]? = some j ∧
        rowSlice mat i = some sl ∧ matpbm_isNZ mat row col = some (decide (j ∈ sl))) ∧
    (∀ a b op, a < mat.m → b < mat.m →
      op ∈ [PermOp.moveRow a b, PermOp.moveCol a b, PermOp.swapRows a b] →
      ∃ r, op.run mat = some r ∧
        ∀ row1 col1, r.roworder[row1]? = mat.roworder[row]? →
          r.colorder[col1]? = mat.colorder[col]? →
          matpbm_isNZ r row1 col1 = matpbm_isNZ mat row col) ∧
    (∀ b, b < mat.m → ∃ r, matpbm_moveRow mat row b = some r ∧
      matpbm_isNZ r b col = matpbm_isNZ mat row col) ∧
    (∀ b, b < mat.m → ∃ r, matpbm_moveCol mat col b = some r ∧
      matpbm_isNZ r row b = matpbm_isNZ mat row col) := by
  refine ⟨?_, ?_, ?_, ?_⟩
  · intro hk
    refine ⟨mat.roworder.getD row 0, mat.colorder.getD col 0, sliceOf mat (mat.roworder.getD row 0),
      (h.row_get hr).1, (h.col_get hc).1, h.rowSlice_eq (h.row_get hr).2, ?_⟩
    rw [h.isNZ_eq hk hr hc]
    rfl
  · intro a b op ha hb hop
    have hop2 : op ∈ [PermOp.swapRows a b, PermOp.swapCols a b, PermOp.moveRow a b,
        PermOp.moveCol a b] := by
      simp only [List.mem_cons, List.mem_singleton, List.not_mem_nil, or_false] at hop ⊢
      rcases hop with rfl | rfl | rfl <;> simp
    obtain ⟨r, hrun, htop, _⟩ := permOp_run_some h a b ha hb op hop2
    exact ⟨r, hrun, fun row1 col1 h1 h2 => isNZ_congr mat r htop row col row1 col1 h1 h2⟩
  · intro b hb
    obtain ⟨B, hB, hrot⟩ := arrayMove_rotation mat.roworder row b (by rw [h.row_len]; exact hr)
      (by rw [h.row_len]; exact hb)
    refine ⟨{ mat with roworder := B }, ?_, ?_⟩
    · simp only [matpbm_moveRow, hB, Option.bind_eq_bind, Option.some_bind, Option.pure_def]
    · exact isNZ_congr mat { mat with roworder := B } rfl row col b col hrot.2.1 rfl
  · intro b hb
    obtain ⟨B, hB, hrot⟩ := arrayMove_rotation mat.colorder col b (by rw [h.col_len]; exact hc)
      (by rw [h.col_len]; exact hb)
    refine ⟨{ mat with colorder := B }, ?_, ?_⟩
    · simp only [matpbm_moveCol, hB, Option.bind_eq_bind, Option.some_bind, Option.pure_def]
    · exact isNZ_congr mat { mat with colorder := B } rfl row col row b rfl hrot.2.1

theorem dense_isNZ_fails (n : Nat) (hn : n = 46342) :
    (∃ bytes, matpbm_loadFromStream bytes = some (some (dense n))) ∧
      WellFormed (dense n) ∧
      (dense n).roworder[46341]? = some 46341 ∧
      (dense n).colorder[0]? = some 0 ∧
      (dense n).rowptr[46341]? = some 2147534622 ∧
      rowSlice (dense n) 46341 = some (List.range n) ∧
      matpbm_isNZ (dense n) 46341 0 = none := by
  have hwf := dense_wf n (by omega)
  have hsq : n * n < 2 ^ 32 := by
    rw [hn]
    decide
  obtain ⟨bytes, _, hl⟩ := dense_loaded n (by omega) hsq
  refine ⟨⟨bytes, hl⟩, hwf, List.getElem?_range (by omega), List.getElem?_range (by omega), ?_,
    ?_, dense_isNZ_undefined n hn⟩
  · rw [dense_rowptr n 46341 (by omega), hn]
  · rw [hwf.rowSlice_eq (show 46341 < (dense n).m from by show 46341 < n; omega),
      dense_slice n 46341 (by omega)]

/-- Claim C6 fails on the code: on the dense matrix of size 46342, which the
loader builds from the all-ones picture, column 0 is in the slice of physical
row 46341, but the slice starts at `rowptr[46341] = 2147534622`, above
`INT_MAX`: the `int` counter of `matpbm_isNZ` starts negative and the call
reads before `colind`, so it has no defined answer. -/
theorem isNZ_int_counter :
    (∃ bytes, matpbm_loadFromStream bytes = some (some (dense 46342))) ∧
      WellFormed (dense 46342) ∧
      (dense 46342).roworder[46341]? = some 46341 ∧
      (dense 46342).colorder[0]? = some 0 ∧
      (dense 46342).rowptr[46341]? = some 2147534622 ∧
      rowSlice (dense 46342) 46341 = some (List.range 46342) ∧
      matpbm_isNZ (dense 46342) 46341 0 = none :=
  dense_isNZ_fails 46342 rfl

/-- Claim C9: for `from`, `to` below `m`, `matpbm_moveRow` returns the matrix
whose `roworder` is the old array with the entry at `from` taken out and put
back at `to` (the entries between shift one cell toward `from`, the others
stay, the relative order of the other entries is kept) and changes nothing
else; `matpbm_moveCol` does the same to `colorder`. -/
theorem move_is_rotation (mat : Bmat) (h : WellFormed mat) (a b : Nat) (ha : a < mat.m)
    (hb : b < mat.m) :
    (∃ B, matpbm_moveRow mat a b = some { mat with roworder := B } ∧
      IsRotation mat.roworder B a b) ∧
    (∃ B, matpbm_moveCol mat a b = some { mat with colorder := B } ∧
      IsRotation mat.colorder B a b) := by
  constructor
  · obtain ⟨B, hB, hrot⟩ := arrayMove_rotation mat.roworder a b (by rw [h.row_len]; exact ha)
      (by rw [h.row_len]; exact hb)
    refine ⟨B, ?_, hrot⟩
    simp only [matpbm_moveRow, hB, Option.bind_eq_bind, Option.some_bind, Option.pure_def]
  · obtain ⟨B, hB, hrot⟩ := arrayMove_rotation mat.colorder a b (by rw [h.col_len]; exact ha)
      (by rw [h.col_len]; exact hb)
    refine ⟨B, ?_, hrot⟩
    simp only [matpbm_moveCol, hB, Option.bind_eq_bind, Option.some_bind, Option.pure_def]

theorem move_is_rotation_witness :
    (∃ B, matpbm_moveRow bidiag4 0 2 = some { bidiag4 with roworder := B } ∧
      IsRotation bidiag4.roworder B 0 2) ∧
    (∃ B, matpbm_moveCol bidiag4 0 2 = some { bidiag4 with colorder := B } ∧
      IsRotation bidiag4.colorder B 0 2) :=
  move_is_rotation bidiag4 bidiag4_wf 0 2 (by decide) (by decide)

/-- Claim C10 fails on the code: on the 2x2 identity orderings
`matpbm_swapCols(mat, 0, 1)` leaves `colorder` as it was and exchanges the two
entries of `roworder`. -/
theorem swapCols_writes_roworder :
    WellFormed ident2 ∧
      matpbm_swapCols ident2 0 1 = some { ident2 with roworder := [1, 0] } ∧
      ident2.colorder = [0, 1] ∧ ident2.roworder = [0, 1] :=
  ⟨ident2_wf, by decide, rfl, rfl⟩

end Rareman

/-! ## The claims on the passes of the inner loop and on the block commit -/

namespace Rareman

end Rareman

/-! ## The claims on one outer iteration and the rest of the run -/

namespace Rareman

end Rareman

/-! ## The claim on the placement of a committed block -/

namespace Rareman

end Rareman

/-! ## The claims on the PBM codec -/

namespace Rareman

/-- Where `colind` has fewer than `2^31` cells, `matpbm_writeToStream` writes,
after the header, exactly `m * ceil(m/8)` bytes; byte number
`ii * ceil(m/8) + jj / 8` has bit `7 - jj mod 8` set exactly when `jj < m` and
`matpbm_isNZ(mat, ii, jj)` is true, so the bits of a row's last byte beyond
column `m - 1` are zero. -/
theorem written_body_layout (mat : Bmat) (h : WellFormed mat)
    (hk : mat.colind.length < 2 ^ 31) :
    ∃ body, matpbm_writeToStream mat = some (write_header mat.m ++ body) ∧
      body.length = mat.m * ((mat.m + 7) / 8) ∧
      ∀ ii jj, ii < mat.m → jj < 8 * ((mat.m + 7) / 8) →
        ((body.getD (ii * ((mat.m + 7) / 8) + jj / 8) 0).testBit (7 - jj % 8) = true ↔
          (jj < mat.m ∧ matpbm_isNZ mat ii jj = some true)) := by
  obtain ⟨body, hw, _, hbl, hbits⟩ := write_stream_spec h hk
  refine ⟨body, hw, hbl, ?_⟩
  intro ii jj hii hjj
  rw [hbits ii jj hii hjj]
  by_cases hj : jj < mat.m
  · rw [h.isNZ_eq hk hii hj]
    simp [hj]
  · simp [hj]

theorem dense_write_fails (n : Nat) (hn : n = 46342) :
    (∃ bytes, matpbm_loadFromStream bytes = some (some (dense n))) ∧
      WellFormed (dense n) ∧ (dense n).rowptr[46341]? = some 2147534622 ∧
      matpbm_writeToStream (dense n) = none := by
  have hsq : n * n < 2 ^ 32 := by
    rw [hn]
    decide
  obtain ⟨bytes, _, hl⟩ := dense_loaded n (by omega) hsq
  refine ⟨⟨bytes, hl⟩, dense_wf n (by omega), ?_, dense_write_undefined n hn⟩
  rw [dense_rowptr n 46341 (by omega), hn]

/-- Claim C15 fails on the code: the dense matrix of size 46342, which the
loader builds from the all-ones picture, is well formed, but
`matpbm_writeToStream` does not write its body: the row scan of the writer has
the `int` counter of `matpbm_isNZ`, and the slices of the last rows start
above `INT_MAX` (`rowptr[46341] = 2147534622`), so the writer reads outside
`colind` and no byte sequence is defined. -/
theorem writer_int_counter :
    (∃ bytes, matpbm_loadFromStream bytes = some (some (dense 46342))) ∧
      WellFormed (dense 46342) ∧ (dense 46342).rowptr[46341]? = some 2147534622 ∧
      matpbm_writeToStream (dense 46342) = none :=
  dense_write_fails 46342 rfl

/-- Claim C14: `matpbm_loadFromStream` returns `NULL` when the lines of the
stream hold no dimension line (no line equal to `"P4\n"` followed by a line
that is neither a comment nor `"P4\n"`), when `sscanf` reads two different
integers from the dimension line, and when it reads `m m` and fewer than
`ceil(m/8) * m` bytes follow; it returns a matrix of size `m` when at least
`ceil(m/8) * m` bytes follow. -/
theorem decode_failures (s : List Nat) :
    (dimension_line false (stream_lines (s.length + 1) s) = none →
      matpbm_loadFromStream s = some none) ∧
    (∀ line rest (m n : Int),
      dimension_line false (stream_lines (s.length + 1) s) = some (line, rest) →
      sscanf_dims (cstr line) = some (m, n) → m ≠ n →
      matpbm_loadFromStream s = some none) ∧
    (∀ line rest (m : Nat),
      dimension_line false (stream_lines (s.length + 1) s) = some (line, rest) →
      sscanf_dims (cstr line) = some ((m : Int), (m : Int)) →
      (rest.length < (m + 7) / 8 * m → matpbm_loadFromStream s = some none) ∧
      ((m + 7) / 8 * m ≤ rest.length →
        ∃ mat, matpbm_loadFromStream s = some (some mat) ∧ mat.m = m ∧
          mat.rowptr.length = m ∧ mat.rowlen.length = m ∧
          mat.roworder = List.range m ∧ mat.colorder = List.range m)) := by
  refine ⟨?_, ?_, ?_⟩
  · intro hd
    unfold matpbm_loadFromStream
    rw [read_header_lines (s.length + 1) false s (Nat.lt_succ_self _), hd]
  · intro line rest m n hd hs hne
    unfold matpbm_loadFromStream
    rw [read_header_lines (s.length + 1) false s (Nat.lt_succ_self _), hd]
    simp only [hs]
    rw [if_pos hne]
  · intro line rest m hd hs
    rw [load_stream_of_header s line rest m hd hs]
    constructor
    · intro hlt
      rw [load_rows_none m ((m + 7) / 8) m rest [] 0 hlt]
    · intro hle
      obtain ⟨r, hr, h1, h2⟩ := load_rows_some m ((m + 7) / 8) m rest [] 0 hle
      rw [hr]
      exact ⟨_, rfl, rfl, h1, h2, rfl, rfl⟩

theorem decode_failures_witness :
    matpbm_loadFromStream [80, 53, 10, 51, 32, 51, 10, 255] = some none ∧
    matpbm_loadFromStream [80, 52, 10, 51, 32, 52, 10, 255, 2, 128] = some none ∧
    matpbm_loadFromStream [80, 52, 10, 51, 32, 51, 10, 255, 2] = some none ∧
    ∃ mat, matpbm_loadFromStream [80, 52, 10, 51, 32, 51, 10, 255, 2, 128] = some (some mat) ∧
      mat.m = 3 ∧ mat.rowptr.length = 3 ∧ mat.rowlen.length = 3 ∧
      mat.roworder = List.range 3 ∧ mat.colorder = List.range 3 :=
  ⟨(decode_failures [80, 53, 10, 51, 32, 51, 10, 255]).1 (by decide),
    (decode_failures [80, 52, 10, 51, 32, 52, 10, 255, 2, 128]).2.1 [51, 32, 52, 10]
      [255, 2, 128] 3 4 (by decide) (by decide) (by decide),
    ((decode_failures [80, 52, 10, 51, 32, 51, 10, 255, 2]).2.2 [51, 32, 51, 10]
      [255, 2] 3 (by decide) (by decide)).1 (by decide),
    ((decode_failures [80, 52, 10, 51, 32, 51, 10, 255, 2, 128]).2.2 [51, 32, 51, 10]
      [255, 2, 128] 3 (by decide) (by decide)).2 (by decide)⟩

end Rareman
